import Mathlib

/-!
# Private blockchain: block and ledger

A shallow embedding of `src/block.js` and `src/blockchain.js`.

* JavaScript strings are Lean strings (sequences of Unicode scalar values).
* `null` is `none`; a promise is represented by the state it settles in
  (`Settled`), a promise that can only resolve by the value it resolves to.
* `SHA256(..).toString()` (crypto-js) and `bitcoinMessage.verify`
  (bitcoinjs-message) are external libraries: they are parameters `sha` and
  `verify` of every operation that calls them.
* `new Date().getTime()` is an explicit argument: the clock reading in
  milliseconds.
* A ledger is the list of the values of its blocks (`Blockchain`), and
  `Blockchain._addBlock` is the call with a block object that is not stored
  in the chain.  `Store` keeps the identity of the block objects, and
  `Store._addBlock` is the call with whatever object, also one that the chain
  already holds; for an object the chain does not hold the two agree
  (`Store.view_addBlock_fresh`).
* Numbers are exact integers and decimals; strings are sequences of Unicode
  scalar values.
-/

namespace PrivateBlockchain

/-! ## JavaScript built-ins -/

/-- State in which a promise ends up: never settled, resolved or rejected. -/
inductive Settled (α ε : Type) where
  | pending
  | resolved (value : α)
  | rejected (reason : ε)
  deriving DecidableEq, Repr

/-- The calls `resolve(v)` and `reject(e)` only have an effect on a promise
that has not been settled yet. -/
def Settled.settle {α ε : Type} (p q : Settled α ε) : Settled α ε :=
  match p with
  | .pending => q
  | _ => p

/-- JSON values, the structured payloads a block stores.  A number is exact:
an integer `num n`, or a decimal `dec m e` with the value `m / 10 ^ e`, which
stands for the JavaScript number that `JSON.stringify` writes as that
decimal.  JavaScript numbers are these on the safe integers and on the
decimals of up to 15 digits; beyond that they are rounded, which is not part
of the model.  The members of an object are listed in property order. -/
inductive JSON where
  | null
  | bool (b : Bool)
  | num (n : Int)
  | dec (m : Int) (e : Nat)
  | str (s : String)
  | arr (xs : List JSON)
  | obj (kvs : List (String × JSON))

/-- Two lowercase hexadecimal digits of a byte. -/
def hexByte (n : Nat) : List Char :=
  [Nat.digitChar (n / 16 % 16), Nat.digitChar (n % 16)]

/-- The escape sequence `JSON.stringify` writes for one character of a
string. -/
def escapeChar (c : Char) : List Char :=
  if c = '"' then ['\\', '"']
  else if c = '\\' then ['\\', '\\']
  else if c.toNat = 8 then ['\\', 'b']
  else if c.toNat = 9 then ['\\', 't']
  else if c.toNat = 10 then ['\\', 'n']
  else if c.toNat = 12 then ['\\', 'f']
  else if c.toNat = 13 then ['\\', 'r']
  else if c.toNat < 32 then ['\\', 'u', '0', '0'] ++ hexByte c.toNat
  else [c]

/-- The function `QuoteJSONString`: the string between double quotes, its
characters escaped. -/
def quote (s : String) : List Char :=
  '"' :: (s.data.flatMap escapeChar ++ ['"'])

/-- Decimal representation of an integer (`Number.prototype.toString`): all
its digits, which is what JavaScript writes for a safe integer. -/
def intToString (n : Int) : List Char :=
  match n with
  | .ofNat k => Nat.toDigits 10 k
  | .negSucc k => '-' :: Nat.toDigits 10 (k + 1)

/-- The decimal `m / 10 ^ e` without trailing zeros after the point. -/
def decimal : Nat → Nat → Nat × Nat
  | m, 0 => (m, 0)
  | m, e + 1 => if m % 10 = 0 then decimal (m / 10) e else (m, e + 1)

/-- Representation of the number `m / 10 ^ e` (`Number.prototype.toString`):
with the digits `s` of the mantissa and the point after `n` of them, the
number is written `ddd.ddd` for `0 < n`, `0.000ddd` for `-6 < n ≤ 0` and
`d.ddde-x` below that.  (A JavaScript number that has digits after the point
has `n ≤ 21`, the bound up to which the first form is used.) -/
def magnitudeChars (m e : Nat) : List Char :=
  let d := decimal m e
  let s := Nat.toDigits 10 d.1
  if d.2 = 0 then s
  else if d.2 < s.length then s.take (s.length - d.2) ++ '.' :: s.drop (s.length - d.2)
  else if d.2 - s.length < 6 then '0' :: '.' :: (List.replicate (d.2 - s.length) '0' ++ s)
  else
    s.take 1 ++ ((if 1 < s.length then '.' :: s.drop 1 else []) ++
      'e' :: '-' :: Nat.toDigits 10 (d.2 - s.length + 1))

/-- Representation of the decimal `m / 10 ^ e` with its sign. -/
def decToString (m : Int) (e : Nat) : List Char :=
  if m < 0 then '-' :: magnitudeChars m.natAbs e else magnitudeChars m.natAbs e

mutual
/-- The serialisation `JSON.stringify(v)`, as a list of characters. -/
def JSON.chars : JSON → List Char
  | .null => "null".data
  | .bool true => "true".data
  | .bool false => "false".data
  | .num n => intToString n
  | .dec m e => decToString m e
  | .str s => quote s
  | .arr xs => '[' :: (JSON.elemChars xs ++ [']'])
  | .obj kvs => '{' :: (JSON.memberChars kvs ++ ['}'])
/-- Elements of an array, separated by commas. -/
def JSON.elemChars : List JSON → List Char
  | [] => []
  | [x] => x.chars
  | x :: y :: xs => x.chars ++ ',' :: JSON.elemChars (y :: xs)
/-- Members of an object, each `"key":value`, separated by commas. -/
def JSON.memberChars : List (String × JSON) → List Char
  | [] => []
  | [(k, v)] => quote k ++ ':' :: v.chars
  | (k, v) :: kv :: kvs => quote k ++ ':' :: (v.chars ++ ',' :: JSON.memberChars (kv :: kvs))
end

/-- The string `JSON.stringify(v)`. -/
def JSON.stringify (v : JSON) : String := ⟨v.chars⟩

/-- UTF-8 bytes of one character. -/
def utf8Char (c : Char) : List Nat :=
  let cp := c.toNat
  if cp < 0x80 then [cp]
  else if cp < 0x800 then [0xC0 + cp / 64, 0x80 + cp % 64]
  else if cp < 0x10000 then [0xE0 + cp / 4096, 0x80 + cp / 64 % 64, 0x80 + cp % 64]
  else [0xF0 + cp / 262144, 0x80 + cp / 4096 % 64, 0x80 + cp / 64 % 64, 0x80 + cp % 64]

/-- The expression `Buffer(s).toString('hex')`: the UTF-8 bytes of `s`, two
hexadecimal digits each. -/
def bufferHex (s : String) : String :=
  ⟨(s.data.flatMap utf8Char).flatMap hexByte⟩

/-- The expression `n.toString().slice(0,-3)` for a clock reading `n`: the
decimal digits of `n` without the last three. -/
def sliceSeconds (now : Nat) : String :=
  ⟨(Nat.toDigits 10 now).take ((Nat.toDigits 10 now).length - 3)⟩

/-- White space in the sense of `\s` and of the trimming done by `parseInt`. -/
def isWhiteSpace (c : Char) : Bool :=
  let n := c.toNat
  (9 ≤ n ∧ n ≤ 13) ∨ n = 32 ∨ n = 0xA0 ∨ n = 0x1680 ∨ (0x2000 ≤ n ∧ n ≤ 0x200A) ∨
    n = 0x2028 ∨ n = 0x2029 ∨ n = 0x202F ∨ n = 0x205F ∨ n = 0x3000 ∨ n = 0xFEFF

/-- Value of a character as a digit (`0`-`9`, then letters of either case). -/
def digitValue (c : Char) : Option Nat :=
  let n := c.toNat
  if 48 ≤ n ∧ n ≤ 57 then some (n - 48)
  else if 97 ≤ n ∧ n ≤ 122 then some (n - 87)
  else if 65 ≤ n ∧ n ≤ 90 then some (n - 55)
  else none

/-- Longest prefix of digits below `radix`, read as a number: the digits
seen so far are counted in `seen` and accumulated in `acc`. -/
def readDigits (radix : Nat) : List Char → Nat → Nat → Nat × Nat
  | [], seen, acc => (seen, acc)
  | c :: cs, seen, acc =>
    match digitValue c with
    | some d => if d < radix then readDigits radix cs (seen + 1) (acc * radix + d) else (seen, acc)
    | none => (seen, acc)

/-- Leading white space removed. -/
def trimStart : List Char → List Char
  | [] => []
  | c :: cs => if isWhiteSpace c then trimStart cs else c :: cs

/-- The function `parseInt(s, radix)`, `radix = 0` standing for an omitted
radix; `none` is `NaN`.  The value is an exact integer. -/
def parseInt (s : String) (radix : Nat) : Option Int :=
  let cs := trimStart s.data
  let neg := cs.head? = some '-'
  let cs := if cs.head? = some '-' ∨ cs.head? = some '+' then cs.tail else cs
  if radix ≠ 0 ∧ (radix < 2 ∨ 36 < radix) then none
  else
    let hexMarker := (radix = 0 ∨ radix = 16) ∧ (cs.take 2 = ['0', 'x'] ∨ cs.take 2 = ['0', 'X'])
    let r := if hexMarker then 16 else if radix = 0 then 10 else radix
    let cs := if hexMarker then cs.drop 2 else cs
    let (seen, value) := readDigits r cs 0 0
    if seen = 0 then none
    else some (if neg then -(value : Int) else value)

/-- Segments of a list of characters between occurrences of `sep`. -/
def splitChars (sep : Char) : List Char → List (List Char)
  | [] => [[]]
  | c :: cs =>
    match splitChars sep cs with
    | [] => [[c]]
    | seg :: segs => if c = sep then [] :: seg :: segs else (c :: seg) :: segs

/-- The expression `s.split(sep)[i]`; `none` is `undefined`. -/
def splitAt (s : String) (sep : Char) (i : Nat) : Option String :=
  ((splitChars sep s.data).get? i).map String.mk

/-- The character pairs `hex.substr(i, 2)` for `i = 0, 2, 4, ...`. -/
def pairs : List Char → List (List Char)
  | [] => []
  | [a] => [[a]]
  | a :: b :: cs => [a, b] :: pairs cs

/-- The npm function `hex2ascii(hex)` on a string: white space removed, every
pair of characters read with `parseInt(.., 16)`, and each code that is
neither `NaN` nor `0` turned into a character with `String.fromCharCode`. -/
def hex2ascii (hex : String) : String :=
  let hex := hex.data.filter (fun c => !isWhiteSpace c)
  ⟨(pairs hex).filterMap fun p =>
    match parseInt ⟨p⟩ 16 with
    | none => none
    | some code => if code = 0 then none else some (Char.ofNat (code % 65536).toNat)⟩

/-! ### `JSON.parse` -/

/-- White space of the JSON grammar. -/
def isJsonSpace (c : Char) : Bool :=
  c = ' ' ∨ c = '\t' ∨ c = '\n' ∨ c = '\r'

/-- Leading JSON white space removed. -/
def skipSpace : List Char → List Char
  | [] => []
  | c :: cs => if isJsonSpace c then skipSpace cs else c :: cs

/-- Value of a hexadecimal digit. -/
def hexValue (c : Char) : Option Nat :=
  match digitValue c with
  | some d => if d < 16 then some d else none
  | none => none

/-- Code unit written by the four hexadecimal digits of a `\u` escape. -/
def hex4 (a b c d : Char) : Option Nat :=
  match hexValue a, hexValue b, hexValue c, hexValue d with
  | some w, some x, some y, some z => some (((w * 16 + x) * 16 + y) * 16 + z)
  | _, _, _, _ => none

/-- Character of a one-letter escape. -/
def simpleEscape (e : Char) : Option Char :=
  if e = '"' then some '"' else if e = '\\' then some '\\' else if e = '/' then some '/'
  else if e = 'b' then some (Char.ofNat 8) else if e = 'f' then some (Char.ofNat 12)
  else if e = 'n' then some '\n' else if e = 'r' then some '\r' else if e = 't' then some '\t'
  else none

/-- One character of a string literal, written plainly or as an escape, and
the input after it.  A surrogate pair of `\u` escapes is one character.  An
unpaired surrogate is accepted as `JSON.parse` accepts it; it is no Unicode
scalar value and is read as U+FFFD, the character that takes its place when
the string is written as UTF-8. -/
def stringChar : List Char → Option (Char × List Char)
  | [] => none
  | c :: cs =>
    if c = '\\' then
      match cs with
      | [] => none
      | e :: rest =>
        if e = 'u' then
          match rest with
          | w :: x :: y :: z :: rest1 =>
            match hex4 w x y z with
            | none => none
            | some u =>
              if 0xD800 ≤ u ∧ u < 0xDC00 then
                match rest1 with
                | b :: e2 :: w2 :: x2 :: y2 :: z2 :: rest2 =>
                  match hex4 w2 x2 y2 z2 with
                  | some l =>
                    if b = '\\' ∧ e2 = 'u' ∧ 0xDC00 ≤ l ∧ l < 0xE000 then
                      some (Char.ofNat (0x10000 + (u - 0xD800) * 1024 + (l - 0xDC00)), rest2)
                    else some (Char.ofNat 0xFFFD, rest1)
                  | none => some (Char.ofNat 0xFFFD, rest1)
                | _ => some (Char.ofNat 0xFFFD, rest1)
              else if 0xDC00 ≤ u ∧ u < 0xE000 then some (Char.ofNat 0xFFFD, rest1)
              else some (Char.ofNat u, rest1)
          | _ => none
        else (simpleEscape e).map fun ch => (ch, rest)
    else if c.toNat < 32 then none
    else some (c, cs)

/-- A string literal after its opening quote: the characters it denotes and
the input after the closing quote.  Every step takes at least one character
of the input off `fuel`. -/
def parseStringBody : Nat → List Char → Option (List Char × List Char)
  | 0, _ => none
  | fuel + 1, cs =>
    if cs.head? = some '"' then some ([], cs.tail)
    else
      match stringChar cs with
      | some (ch, rest) => (parseStringBody fuel rest).map fun r => (ch :: r.1, r.2)
      | none => none

/-- A string literal after its opening quote, with fuel for all its input. -/
def parseString (cs : List Char) : Option (List Char × List Char) :=
  parseStringBody cs.length cs

/-- The fraction of a numeral, if the input starts with one: a point and at
least one digit.  The digits continue the mantissa `acc`; the result is the
number of digits of the fraction, the mantissa and the input after it. -/
def readFraction (cs : List Char) (acc : Nat) : Option (Nat × Nat × List Char) :=
  if cs.head? = some '.' then
    let (seen, value) := readDigits 10 cs.tail 0 acc
    if seen = 0 then none else some (seen, value, cs.tail.drop seen)
  else some (0, acc, cs)

/-- The exponent of a numeral, if the input starts with one: `e` or `E`, an
optional sign and at least one digit. -/
def readExponent (cs : List Char) : Option (Int × List Char) :=
  if cs.head? = some 'e' ∨ cs.head? = some 'E' then
    let ds := cs.tail
    let neg := ds.head? = some '-'
    let ds := if ds.head? = some '-' ∨ ds.head? = some '+' then ds.tail else ds
    let (seen, value) := readDigits 10 ds 0 0
    if seen = 0 then none else some (if neg then -(value : Int) else value, ds.drop seen)
  else some (0, cs)

/-- The number `mantissa * 10 ^ shift` with its sign: an integer, or a
decimal without trailing zeros. -/
def numberValue (neg : Bool) (mantissa : Nat) (shift : Int) : JSON :=
  if 0 ≤ shift then
    let value := mantissa * 10 ^ shift.toNat
    .num (if neg then -(value : Int) else value)
  else
    let d := decimal mantissa (-shift).toNat
    if d.2 = 0 then .num (if neg then -(d.1 : Int) else d.1)
    else .dec (if neg then -(d.1 : Int) else d.1) d.2

/-- A number: an optional minus sign, `0` or a numeral without leading zero,
an optional fraction and an optional exponent. -/
def parseNumber (cs : List Char) : Option (JSON × List Char) :=
  let neg := cs.head? = some '-'
  let ds := if neg then cs.tail else cs
  let (seen, value) := readDigits 10 ds 0 0
  let rest := ds.drop seen
  if seen = 0 ∨ (1 < seen ∧ ds.head? = some '0') then none
  else
    match readFraction rest value with
    | none => none
    | some (places, mantissa, rest1) =>
      match readExponent rest1 with
      | none => none
      | some (exponent, rest2) => some (numberValue neg mantissa (exponent - places), rest2)

/-- The array index a key stands for: a decimal numeral without leading zero
below `2 ^ 32 - 1`. -/
def arrayIndex (k : String) : Option Nat :=
  let (seen, value) := readDigits 10 k.data 0 0
  if seen = 0 ∨ seen ≠ k.data.length ∨ (1 < seen ∧ k.data.head? = some '0') ∨
      4294967295 ≤ value then none
  else some value

/-- Whether a new key `k` takes its place before the key `k'`: the keys that
are array indices come first, in ascending order, the other keys follow in
the order they were added. -/
def keyBefore (k k' : String) : Bool :=
  match arrayIndex k, arrayIndex k' with
  | some n, some n' => n < n'
  | some _, none => true
  | none, _ => false

/-- Member `k: v` added to the members read so far, which are in property
order: a repeated key keeps its place and takes the new value. -/
def setMember (k : String) (v : JSON) : List (String × JSON) → List (String × JSON)
  | [] => [(k, v)]
  | (k', v') :: kvs =>
    if k' = k then (k, v) :: kvs
    else if keyBefore k k' then (k, v) :: (k', v') :: kvs
    else (k', v') :: setMember k v kvs

/-- Elements of an array after the first, up to the closing bracket; `value`
reads one value. -/
def parseElements (value : List Char → Option (JSON × List Char)) :
    Nat → List Char → List JSON → Option (JSON × List Char)
  | 0, _, _ => none
  | fuel + 1, cs, acc =>
    match skipSpace cs with
    | c :: rest =>
      if c = ']' then some (.arr acc, rest)
      else if c = ',' then
        match value rest with
        | some (v, rest') => parseElements value fuel rest' (acc ++ [v])
        | none => none
      else none
    | [] => none

/-- Members of an object after the first, up to the closing brace. -/
def parseMembers (value : List Char → Option (JSON × List Char)) :
    Nat → List Char → List (String × JSON) → Option (JSON × List Char)
  | 0, _, _ => none
  | fuel + 1, cs, acc =>
    match skipSpace cs with
    | c :: rest =>
      if c = '}' then some (.obj acc, rest)
      else if c = ',' then
        match skipSpace rest with
        | '"' :: rest1 =>
          match parseString rest1 with
          | some (k, rest2) =>
            match skipSpace rest2 with
            | ':' :: rest3 =>
              match value rest3 with
              | some (v, rest4) => parseMembers value fuel rest4 (setMember ⟨k⟩ v acc)
              | none => none
            | _ => none
          | none => none
        | _ => none
      else none
    | [] => none

/-- One JSON value at the head of the input and the input after it. -/
def parseValue : Nat → List Char → Option (JSON × List Char)
  | 0, _ => none
  | fuel + 1, cs =>
    match skipSpace cs with
    | [] => none
    | c :: rest =>
      if c = '"' then (parseString rest).map fun r => (.str ⟨r.1⟩, r.2)
      else if c = '[' then
        match skipSpace rest with
        | ']' :: rest1 => some (.arr [], rest1)
        | _ =>
          match parseValue fuel rest with
          | some (v, rest1) => parseElements (parseValue fuel) fuel rest1 [v]
          | none => none
      else if c = '{' then
        match skipSpace rest with
        | '}' :: rest1 => some (.obj [], rest1)
        | '"' :: rest1 =>
          match parseString rest1 with
          | some (k, rest2) =>
            match skipSpace rest2 with
            | ':' :: rest3 =>
              match parseValue fuel rest3 with
              | some (v, rest4) => parseMembers (parseValue fuel) fuel rest4 [(⟨k⟩, v)]
              | none => none
            | _ => none
          | none => none
        | _ => none
      else if (c :: rest).take 4 = "null".data then some (.null, rest.drop 3)
      else if (c :: rest).take 4 = "true".data then some (.bool true, rest.drop 3)
      else if (c :: rest).take 5 = "false".data then some (.bool false, rest.drop 4)
      else parseNumber (c :: rest)

/-- The function `JSON.parse(text)`; `none` stands for the `SyntaxError`.
The fuel is enough for every text: each step of the reading takes at least
one character. -/
def JSON.parse (text : String) : Option JSON :=
  match parseValue (text.length + 1) text.data with
  | some (v, rest) => if skipSpace rest = [] then some v else none
  | none => none

/-! ## Block (`src/block.js`) -/

/-- Value of the field `time`: the number `0` the constructor writes, or the
string `_addBlock` writes. -/
inductive TimeValue where
  | num (n : Nat)
  | str (s : String)
  deriving DecidableEq, Repr

/-- A block object with its five own properties, in creation order. -/
structure Block where
  hash : Option String
  height : Nat
  body : String
  time : TimeValue
  previousBlockHash : Option String
  deriving DecidableEq, Repr

/-- A string or `null` as a JSON value. -/
def nullable : Option String → JSON
  | none => .null
  | some s => .str s

/-- JSON value of the field `time`. -/
def TimeValue.toJSON : TimeValue → JSON
  | .num n => .num n
  | .str s => .str s

/-- The object `JSON.stringify` sees when it is given a block. -/
def Block.toJSON (b : Block) : JSON :=
  .obj [("hash", nullable b.hash), ("height", .num b.height), ("body", .str b.body),
    ("time", b.time.toJSON), ("previousBlockHash", nullable b.previousBlockHash)]

/-- Constructor `new Block(data)`. -/
def Block.new (data : JSON) : Block :=
  { hash := none
    height := 0
    body := bufferHex data.stringify
    time := .num 0
    previousBlockHash := none }

/-- Method `validate()`: the promise always resolves, to whether the stored
hash is the digest of the block with `hash: null`. -/
def Block.validate (sha : String → String) (self : Block) : Bool :=
  let blockHash := self.hash
  let tempBlock := { self with hash := none }
  let recalculatedHash := sha tempBlock.toJSON.stringify
  blockHash = some recalculatedHash

/-- Method `getBData()`.  The executor does not return after `reject`, so the
body is decoded at every height: an exception of `JSON.parse` ends the
executor and leaves the promise as it is, and `resolve(data)` settles it only
if the height check has not rejected it. -/
def Block.getBData (self : Block) : Settled JSON String :=
  let promise : Settled JSON String := .pending
  let promise := if self.height = 0 then promise.settle (.rejected "This is the Genesis Block") else promise
  match JSON.parse (hex2ascii self.body) with
  | none => promise
  | some data => promise.settle (.resolved data)

/-! ## Blockchain (`src/blockchain.js`) -/

/-- The ledger object: the array `chain` and the counter `height`. -/
structure Blockchain where
  chain : List Block
  height : Int
  deriving DecidableEq, Repr

/-- Method `_addBlock(block)` at clock reading `now`, called with a block
object that is not stored in the chain and has the fields `block`: the new
ledger and the block the promise resolves to.  Nothing in the `try` block
throws.  `Store._addBlock` is the call with an object the chain may hold. -/
def Blockchain._addBlock (sha : String → String) (self : Blockchain) (block : Block)
    (now : Nat) : Blockchain × Block :=
  let block := { block with height := self.chain.length }
  let block := { block with time := .str (sliceSeconds now) }
  let block :=
    match self.chain.getLast? with
    | some last => { block with previousBlockHash := last.hash }
    | none => block
  let block := { block with hash := some (sha block.toJSON.stringify) }
  let chain := self.chain ++ [block]
  ({ chain := chain, height := chain.length }, block)

/-- Method `initializeChain()` at clock reading `now`. -/
def Blockchain.initializeChain (sha : String → String) (self : Blockchain) (now : Nat) :
    Blockchain :=
  if self.height = -1 then
    let block := Block.new (.obj [("data", .str "Genesis Block")])
    (self._addBlock sha block now).1
  else self

/-- Constructor `new Blockchain()` at clock reading `now`. -/
def Blockchain.new (sha : String → String) (now : Nat) : Blockchain :=
  Blockchain.initializeChain sha { chain := [], height := -1 } now

/-- Method `getChainHeight()`: the promise always resolves, to `height`. -/
def Blockchain.getChainHeight (self : Blockchain) : Int := self.height

/-- Template-literal rendering of a hash: `null` prints as the word. -/
def hashText : Option String → String
  | none => "null"
  | some h => h

/-- One iteration of the loop of `validateChain`, on the pair of `errorLog`
and the variable `previousBlockHash` (`none` while it is `undefined`). -/
def validateStep (sha : String → String) (st : List String × Option (Option String))
    (block : Block) : List String × Option (Option String) :=
  let isValid := block.validate sha
  let errorLog := if !isValid then st.1 ++ ["Block " ++ hashText block.hash ++ " is invalid"] else st.1
  let errorLog :=
    if block.height ≠ 0 ∧ some block.previousBlockHash ≠ st.2 then
      errorLog ++ ["Block " ++ hashText block.hash ++ " has invalid hash"]
    else errorLog
  (errorLog, some block.hash)

/-- Method `validateChain()`: the promise always resolves, to `errorLog`. -/
def Blockchain.validateChain (sha : String → String) (self : Blockchain) : List String :=
  (self.chain.foldl (validateStep sha) ([], none)).1

/-- Reason a promise of `submitStar` is rejected with: the array `errorLog`,
or a message. -/
inductive Rejection where
  | errorLog (log : List String)
  | text (message : String)
  deriving DecidableEq, Repr

/-- The constant `currentTime` of `submitStar` at clock reading `now`:
`parseInt(new Date().getTime().toString().slice(0, -3))`; `none` is `NaN`. -/
def currentTime (now : Nat) : Option Int :=
  parseInt (sliceSeconds now) 0

/-- The constant `messageTime` of `submitStar`:
`parseInt(message.split(':')[1])`; `none` is `NaN`. -/
def messageTime (message : String) : Option Int :=
  match splitAt message ':' 1 with
  | some part => parseInt part 0
  | none => none

/-- The test `messageTime + 5 * 60 < currentTime` of `submitStar`, for the
clock reading `now`; a comparison with `NaN` is false. -/
def expired (message : String) (now : Nat) : Bool :=
  match messageTime message, currentTime now with
  | some m, some c => m + 5 * 60 < c
  | _, _ => false

/-- Method `submitStar(address, message, signature, star)`: the ledger after
the call and the state of the returned promise.  The clock is read at `now`
for the expiry test and at `addTime` by `_addBlock`.  `verify` returns `none`
when the library throws: the exception ends the executor and the promise is
never settled. -/
def Blockchain.submitStar (sha : String → String)
    (verify : String → String → String → Option Bool) (self : Blockchain)
    (address message signature : String) (star : JSON) (now addTime : Nat) :
    Blockchain × Settled Block Rejection :=
  let errorLog := self.validateChain sha
  if errorLog.length = 0 then
    if expired message now then (self, .rejected (.text "5 minute exceeded"))
    else
      match verify message address signature with
      | none => (self, .pending)
      | some false => (self, .rejected (.text "Invalid Signature"))
      | some true =>
        let added := self._addBlock sha (Block.new (.obj [("address", .str address), ("star", star)])) addTime
        (added.1, .resolved added.2)
  else (self, .rejected (.errorLog errorLog))

/-- Method `getBlockByHeight(height)`: the promise resolves to the first
block of the chain with that height, or to `null`. -/
def Blockchain.getBlockByHeight (self : Blockchain) (height : Int) :
    Settled (Option Block) String :=
  let block := (self.chain.filter fun p => (p.height : Int) = height).head?
  match block with
  | some b => .resolved (some b)
  | none => .resolved none

/-- Ledger obtained by `new Blockchain()` at clock reading `genesisTime`
followed by one call `_addBlock(new Block(data))` for every entry of `steps`,
each a payload with the clock reading of its call. -/
def Blockchain.build (sha : String → String) (genesisTime : Nat) (steps : List (JSON × Nat)) :
    Blockchain :=
  steps.foldl (fun bc step => (bc._addBlock sha (Block.new step.1) step.2).1)
    (Blockchain.new sha genesisTime)

/-- State of the loop of `validateChain` after the blocks of `chain`. -/
def scan (sha : String → String) (chain : List Block) : List String × Option (Option String) :=
  chain.foldl (validateStep sha) ([], none)

/-- The string `validate()` hashes: `JSON.stringify({...self, hash: null})`. -/
def Block.canonical (b : Block) : String :=
  ({ b with hash := none }).toJSON.stringify

/-- A change of one field of a block to a given value. -/
inductive Tamper where
  | hash (v : Option String)
  | height (v : Nat)
  | body (v : String)
  | time (v : TimeValue)
  | previousBlockHash (v : Option String)
  deriving DecidableEq, Repr

/-- The block with the one field changed. -/
def Tamper.apply : Tamper → Block → Block
  | .hash v, b => { b with hash := v }
  | .height v, b => { b with height := v }
  | .body v, b => { b with body := v }
  | .time v, b => { b with time := v }
  | .previousBlockHash v, b => { b with previousBlockHash := v }

/-- Ledger states that the constructor and calls of `_addBlock`, `submitStar`
and `initializeChain` lead to. -/
inductive Reachable (sha : String → String) (verify : String → String → String → Option Bool) :
    Blockchain → Prop where
  | new (now : Nat) : Reachable sha verify (Blockchain.new sha now)
  | addBlock (bc : Blockchain) (block : Block) (now : Nat) :
      Reachable sha verify bc → Reachable sha verify (bc._addBlock sha block now).1
  | submitStar (bc : Blockchain) (address message signature : String) (star : JSON)
      (now addTime : Nat) :
      Reachable sha verify bc →
        Reachable sha verify
          (bc.submitStar sha verify address message signature star now addTime).1
  | initializeChain (bc : Blockchain) (now : Nat) :
      Reachable sha verify bc → Reachable sha verify (bc.initializeChain sha now)

/-- Number denoted by a list of digits, continuing from `acc`. -/
def digitsValue (acc : Nat) (ds : List Char) : Nat :=
  ds.foldl (fun a c => a * 10 + (digitValue c).getD 0) acc

/-- A digest for examples: the hashed string itself, which has no
collisions. -/
def plainDigest (s : String) : String := s

/-- The genesis block of the ledger constructed at clock reading
`1700000000000` with `plainDigest`. -/
def genesisExample : Block :=
  (Blockchain._addBlock plainDigest { chain := [], height := -1 }
    (Block.new (.obj [("data", .str "Genesis Block")])) 1700000000000).2

/-- A signature check for examples: every signature is accepted. -/
def acceptAll (_message _address _signature : String) : Option Bool := some true

/-- A signature check for examples: every signature is refused. -/
def refuseAll (_message _address _signature : String) : Option Bool := some false

/-- Every block of the chain has its position as height. -/
def Indexed (chain : List Block) : Prop :=
  ∀ (i : Nat) (b : Block), chain[i]? = some b → b.height = i

/-- A ledger whose only block is the genesis block of `genesisExample` with
its body overwritten. -/
def corruptedExample : Blockchain :=
  { chain := [(Tamper.body "00").apply genesisExample], height := 1 }

/-! ## More of the ledger (`src/blockchain.js`) -/

/-- State of the ledger object after the two assignments of the constructor,
before it calls `initializeChain()`. -/
def Blockchain.initial : Blockchain :=
  { chain := [], height := -1 }

/-- Method `requestMessageOwnershipVerification(address)` at clock reading
`now`: nothing in the `try` block throws and the promise resolves to the
message. -/
def Blockchain.requestMessageOwnershipVerification (_self : Blockchain) (address : String)
    (now : Nat) : Settled String String :=
  let message := address ++ ":" ++ sliceSeconds now ++ ":starRegistry"
  .resolved message

/-- Method `getBlockByHash(hash)` for a string `hash`. -/
def Blockchain.getBlockByHash (self : Blockchain) (hash : String) : Settled Block String :=
  let result := self.chain.filter fun b => b.hash = some hash
  match result with
  | first :: _ => .resolved first
  | [] => .rejected "Block not found"

/-- The function `asyncForEach(array, callback)` from position `index` on:
the callback is awaited for one element after the other.  `state` stands for
the variables the callback writes; a callback whose promise is rejected or
never settles ends the loop in that state of the promise. -/
def asyncForEach {α σ ε : Type} (callback : σ → α → Nat → Settled σ ε) :
    List α → Nat → σ → Settled σ ε
  | [], _, state => .resolved state
  | x :: xs, index, state =>
    match callback state x index with
    | .resolved state' => asyncForEach callback xs (index + 1) state'
    | .rejected error => .rejected error
    | .pending => .pending

/-- Truthiness of a JSON value. -/
def JSON.truthy : JSON → Bool
  | .null => false
  | .bool b => b
  | .num n => n ≠ 0
  | .dec m _ => m ≠ 0
  | .str s => s ≠ ""
  | .arr _ => true
  | .obj _ => true

/-- The test `data.address === address` for a string `address`: only an
object has the property, and it has to be that string. -/
def JSON.hasAddress (data : JSON) (address : String) : Bool :=
  match data with
  | .obj kvs =>
    match kvs.lookup "address" with
    | some (.str s) => s = address
    | _ => false
  | _ => false

/-- The callback of `getStarsByWalletAddress`, on the array `stars`. -/
def starsCallback (address : String) (stars : List JSON) (block : Block) (index : Nat) :
    Settled (List JSON) String :=
  if index ≠ 0 then
    match block.getBData with
    | .resolved data =>
      .resolved (if data.truthy ∧ data.hasAddress address then stars ++ [data] else stars)
    | .rejected error => .rejected error
    | .pending => .pending
  else .resolved stars

/-- Method `getStarsByWalletAddress(address)`: an exception of the loop is
caught and rejects the promise; a loop that never ends leaves it pending. -/
def Blockchain.getStarsByWalletAddress (self : Blockchain) (address : String) :
    Settled (List JSON) String :=
  match asyncForEach (starsCallback address) self.chain 0 [] with
  | .resolved stars => .resolved stars
  | .rejected error => .rejected error
  | .pending => .pending

/-- The first block has no previous hash and every later block has the hash
of the block before it as previous hash. -/
def Linked (chain : List Block) : Prop :=
  (∀ b : Block, chain[0]? = some b → b.previousBlockHash = none) ∧
    ∀ (i : Nat) (b p : Block), chain[i + 1]? = some b → chain[i]? = some p →
      b.previousBlockHash = p.hash

/-- A ledger whose second block has a body that is no hexadecimal text. -/
def undecodableExample : Blockchain :=
  ((Blockchain.new plainDigest 1700000000000)._addBlock plainDigest
    { Block.new .null with body := "zz" } 1700000001000).1

/-- The characters `hex2ascii` makes of the UTF-8 bytes of a text: one
character for every byte. -/
def latin1 (cs : List Char) : List Char :=
  (cs.flatMap utf8Char).map Char.ofNat

/-- Text that may follow a value inside a serialisation: nothing, `,`, `]`
or `}`. -/
def Delimited (rest : List Char) : Prop :=
  rest = [] ∨ ∃ r, rest = ',' :: r ∨ rest = ']' :: r ∨ rest = '}' :: r

/-- Elements of an array after the first, each with its comma. -/
def tailElemChars (xs : List JSON) : List Char :=
  xs.flatMap fun x => ',' :: latin1 x.chars

/-- Members of an object after the first, each with its comma. -/
def tailMemberChars (kvs : List (String × JSON)) : List Char :=
  kvs.flatMap fun kv => ',' :: (latin1 (quote kv.1) ++ ':' :: latin1 kv.2.chars)

/-- The body of the block is what the constructor writes for some payload. -/
def Encoded (b : Block) : Prop :=
  ∃ x : JSON, b.body = bufferHex x.stringify

/-- What the callback of `getStarsByWalletAddress` adds to `stars` for a
block whose `getBData()` is resolved: the payload, if its address is the one
asked for. -/
def starOf (address : String) (b : Block) : Option JSON :=
  match b.getBData with
  | .resolved data => if data.truthy ∧ data.hasAddress address then some data else none
  | _ => none

/-! ## Block objects and their identity (`src/blockchain.js`) -/

/-- The ledger with the identity of its block objects: `objects` lists the
block objects that exist, and `chain` holds for every position of the array
the number of the object stored there, so that one object can be stored at
several positions. -/
structure Store where
  objects : List Block
  chain : List Nat
  height : Int
  deriving DecidableEq, Repr

/-- The ledger a reader of the store sees: every position with the present
value of its object. -/
def Store.view (self : Store) : Blockchain :=
  { chain := self.chain.filterMap fun r => self.objects[r]?, height := self.height }

/-- A ledger held as objects, one object for every position. -/
def Store.ofLedger (bc : Blockchain) : Store :=
  { objects := bc.chain, chain := List.range bc.chain.length, height := bc.height }

/-- The expression `new Block(..)` with the fields `block`: the store with
the new object and its number. -/
def Store.create (self : Store) (block : Block) : Store × Nat :=
  ({ self with objects := self.objects ++ [block] }, self.objects.length)

/-- An assignment to fields of the object with number `r`. -/
def Store.assign (self : Store) (r : Nat) (f : Block → Block) : Store :=
  { self with objects := self.objects.modify f r }

/-- Method `_addBlock(block)` at clock reading `now`, called with the object
that has the number `block`: the assignments change that object, which may
already be stored in the chain, and `push` stores it once more. -/
def Store._addBlock (sha : String → String) (self : Store) (block : Nat) (now : Nat) : Store :=
  let self := self.assign block fun b => { b with height := self.chain.length }
  let self := self.assign block fun b => { b with time := .str (sliceSeconds now) }
  let self :=
    match self.chain.getLast? with
    | some last =>
      match self.objects[last]? with
      | some lastBlock => self.assign block fun b => { b with previousBlockHash := lastBlock.hash }
      | none => self
    | none => self
  let self := self.assign block fun b => { b with hash := some (sha b.toJSON.stringify) }
  let chain := self.chain ++ [block]
  { self with chain := chain, height := chain.length }

/-- The store after `new Blockchain()`, `b = new Block("Polaris")`,
`_addBlock(b)` and a second call `_addBlock(b)` with the same object. -/
def reappendExample : Store :=
  let created := (Store.ofLedger (Blockchain.new plainDigest 1700000000000)).create
    (Block.new (.str "Polaris"))
  (created.1._addBlock plainDigest created.2 1700000001000)._addBlock plainDigest created.2
    1700000002000

/-! ## The listing in the words of the specification -/

/-- The identity field of a decoded payload: the member `address` of an
object, when it is a string. -/
def specAddress : JSON → Option String
  | .obj kvs =>
    match kvs.find? fun kv => kv.1 = "address" with
    | some kv =>
      match kv.2 with
      | .str s => some s
      | _ => none
    | none => none
  | _ => none

/-- The entries of an identity: the decoded payloads of the blocks other than
the block at height 0 whose identity field equals `identity`, in chain
order. -/
def specListing (chain : List Block) (identity : String) : List JSON :=
  ((chain.filter fun b => b.height ≠ 0).filterMap fun b => JSON.parse (hex2ascii b.body)).filter
    fun data => specAddress data = some identity

/-! ## Lemmas -/

/-! ### The scan of `validateChain` -/

theorem validateChain_eq (sha : String → String) (bc : Blockchain) :
    bc.validateChain sha = (scan sha bc.chain).1 := rfl

theorem foldl_validateStep_snd (sha : String → String) (chain : List Block)
    (st : List String × Option (Option String)) :
    (chain.foldl (validateStep sha) st).2 =
      match chain.getLast? with
      | some b => some b.hash
      | none => st.2 := by
  induction chain using List.reverseRecOn with
  | nil => simp
  | append_singleton l b _ => simp [List.foldl_append, validateStep]

theorem scan_snd (sha : String → String) (chain : List Block) :
    (scan sha chain).2 = chain.getLast?.map (fun b => b.hash) := by
  unfold scan
  rw [foldl_validateStep_snd]
  cases chain.getLast? <;> rfl

theorem scan_append_singleton (sha : String → String) (chain : List Block) (b : Block) :
    scan sha (chain ++ [b]) = validateStep sha (scan sha chain) b := by
  simp [scan, List.foldl_append]

/-- The block `_addBlock` stores. -/
theorem addBlock_chain (sha : String → String) (bc : Blockchain) (block : Block) (now : Nat) :
    (bc._addBlock sha block now).1.chain = bc.chain ++ [(bc._addBlock sha block now).2] := rfl

theorem addBlock_height (sha : String → String) (bc : Blockchain) (block : Block) (now : Nat) :
    (bc._addBlock sha block now).2.height = bc.chain.length := by
  unfold Blockchain._addBlock
  cases bc.chain.getLast? <;> rfl

theorem addBlock_previous (sha : String → String) (bc : Blockchain) (block : Block) (now : Nat)
    (last : Block) (h : bc.chain.getLast? = some last) :
    (bc._addBlock sha block now).2.previousBlockHash = last.hash := by
  unfold Blockchain._addBlock
  simp [h]

/-- A block that enters `_addBlock` with `hash: null` leaves it with a hash
that `validate()` accepts. -/
theorem addBlock_validate (sha : String → String) (bc : Blockchain) (block : Block) (now : Nat)
    (h : block.hash = none) : (bc._addBlock sha block now).2.validate sha = true := by
  obtain ⟨hash, height, body, time, prev⟩ := block
  simp only at h
  subst h
  unfold Blockchain._addBlock Block.validate
  cases bc.chain.getLast? <;> simp

/-- Appending a block that enters with `hash: null` to a ledger without
problems gives a ledger without problems. -/
theorem addBlock_validateChain (sha : String → String) (bc : Blockchain) (block : Block)
    (now : Nat) (hbc : bc.validateChain sha = []) (h : block.hash = none) :
    (bc._addBlock sha block now).1.validateChain sha = [] := by
  rw [validateChain_eq] at hbc ⊢
  rw [addBlock_chain, scan_append_singleton]
  have hv := addBlock_validate sha bc block now h
  have hh := addBlock_height sha bc block now
  have hs := scan_snd sha bc.chain
  unfold validateStep
  simp only [hv, hbc, Bool.not_true, Bool.false_eq_true, if_false]
  rw [if_neg]
  rw [hs, hh]
  rintro ⟨hne, hlink⟩
  cases hl : bc.chain.getLast? with
  | none =>
    rw [List.getLast?_eq_none_iff] at hl
    simp [hl] at hne
  | some last =>
    rw [addBlock_previous sha bc block now last hl, hl] at hlink
    exact hlink rfl

theorem new_validateChain (sha : String → String) (now : Nat) :
    (Blockchain.new sha now).validateChain sha = [] := by
  unfold Blockchain.new Blockchain.initializeChain
  rw [if_pos rfl]
  exact addBlock_validateChain sha _ _ now rfl rfl

theorem foldl_addBlock_validateChain (sha : String → String) (steps : List (JSON × Nat)) :
    ∀ bc : Blockchain, bc.validateChain sha = [] →
      (steps.foldl (fun bc step => (bc._addBlock sha (Block.new step.1) step.2).1) bc).validateChain
        sha = [] := by
  induction steps with
  | nil => intro bc h; exact h
  | cons step steps ih =>
    intro bc h
    exact ih _ (addBlock_validateChain sha bc (Block.new step.1) step.2 h rfl)

theorem build_validateChain (sha : String → String) (genesisTime : Nat)
    (steps : List (JSON × Nat)) : (Blockchain.build sha genesisTime steps).validateChain sha = [] :=
  foldl_addBlock_validateChain sha steps _ (new_validateChain sha genesisTime)

/-! ## Decimal numerals -/

/-- With enough fuel the digits of `n` are put in front of the accumulator. -/
theorem toDigitsCore_eq_append (fuel : Nat) :
    ∀ (n : Nat) (ds : List Char), n < fuel →
      Nat.toDigitsCore 10 fuel n ds = Nat.toDigits 10 n ++ ds := by
  induction fuel using Nat.strong_induction_on with
  | _ fuel ih =>
    intro n ds hn
    cases fuel with
    | zero => omega
    | succ fuel =>
      unfold Nat.toDigits
      simp only [Nat.toDigitsCore]
      by_cases h0 : n / 10 = 0
      · simp [h0]
      · simp only [h0, if_false]
        have hlt : n / 10 < n := Nat.div_lt_self (by omega) (by decide)
        rw [ih fuel (by omega) (n / 10) _ (by omega), ih n (by omega) (n / 10) _ hlt]
        simp

theorem toDigits_of_lt {n : Nat} (h : n < 10) : Nat.toDigits 10 n = [Nat.digitChar n] := by
  unfold Nat.toDigits
  simp only [Nat.toDigitsCore]
  have : n / 10 = 0 := by omega
  simp [this, Nat.mod_eq_of_lt h]

theorem toDigits_of_ge {n : Nat} (h : 10 ≤ n) :
    Nat.toDigits 10 n = Nat.toDigits 10 (n / 10) ++ [Nat.digitChar (n % 10)] := by
  conv_lhs => unfold Nat.toDigits
  simp only [Nat.toDigitsCore]
  have : n / 10 ≠ 0 := by omega
  simp only [this, if_false]
  exact toDigitsCore_eq_append n (n / 10) _ (Nat.div_lt_self (by omega) (by decide))

theorem digitValue_digitChar {d : Nat} (h : d < 10) : digitValue (Nat.digitChar d) = some d := by
  interval_cases d <;> rfl

/-- Every character of a decimal numeral is one of the ten digits. -/
theorem toDigits_digit (n : Nat) : ∀ c ∈ Nat.toDigits 10 n, ∃ d, d < 10 ∧ c = Nat.digitChar d := by
  induction n using Nat.strong_induction_on with
  | _ n ih =>
    intro c hc
    by_cases h : n < 10
    · rw [toDigits_of_lt h] at hc
      exact ⟨n, h, by simpa using hc⟩
    · rw [toDigits_of_ge (by omega)] at hc
      rcases List.mem_append.1 hc with hc | hc
      · exact ih (n / 10) (Nat.div_lt_self (by omega) (by decide)) c hc
      · exact ⟨n % 10, Nat.mod_lt _ (by decide), by simpa using hc⟩

theorem digitsValue_toDigits (n : Nat) : digitsValue 0 (Nat.toDigits 10 n) = n := by
  induction n using Nat.strong_induction_on with
  | _ n ih =>
    by_cases h : n < 10
    · rw [toDigits_of_lt h]
      simp [digitsValue, digitValue_digitChar h]
    · rw [toDigits_of_ge (by omega)]
      have := ih (n / 10) (Nat.div_lt_self (by omega) (by decide))
      unfold digitsValue at this ⊢
      rw [List.foldl_append, this]
      simp [digitValue_digitChar (Nat.mod_lt n (by decide : 0 < 10))]
      omega

theorem readDigits_append (ds : List Char) (hds : ∀ c ∈ ds, ∃ d, d < 10 ∧ c = Nat.digitChar d) :
    ∀ (rest : List Char) (seen acc : Nat),
      readDigits 10 (ds ++ rest) seen acc =
        readDigits 10 rest (seen + ds.length) (digitsValue acc ds) := by
  induction ds with
  | nil => intro rest seen acc; rfl
  | cons c ds ih =>
    intro rest seen acc
    obtain ⟨d, hd, rfl⟩ := hds c (List.mem_cons_self _ _)
    have ih := ih (fun c hc => hds c (List.mem_cons_of_mem _ hc)) rest (seen + 1) (acc * 10 + d)
    unfold digitsValue at ih
    simp only [List.cons_append, readDigits, digitValue_digitChar hd, hd, if_true,
      List.length_cons, digitsValue, List.foldl_cons, Option.getD_some]
    rw [show seen + (ds.length + 1) = seen + 1 + ds.length by omega]
    exact ih

/-- Reading stops at a character that is not a decimal digit. -/
theorem readDigits_stop (c : Char) (rest : List Char) (seen acc : Nat)
    (h : digitValue c = none) : readDigits 10 (c :: rest) seen acc = (seen, acc) := by
  simp [readDigits, h]

theorem readDigits_toDigits (n : Nat) (c : Char) (rest : List Char) (h : digitValue c = none) :
    readDigits 10 (Nat.toDigits 10 n ++ c :: rest) 0 0 = ((Nat.toDigits 10 n).length, n) := by
  rw [readDigits_append _ (toDigits_digit n), readDigits_stop c rest _ _ h, digitsValue_toDigits]
  simp

/-- A decimal numeral followed by a character that is not a digit determines
the number and what follows. -/
theorem toDigits_append_inj {n m : Nat} {c : Char} {r r' : List Char} (hc : digitValue c = none)
    (h : Nat.toDigits 10 n ++ c :: r = Nat.toDigits 10 m ++ c :: r') : n = m ∧ r = r' := by
  have h1 := congrArg (fun l => (readDigits 10 l 0 0).2) h
  simp only [readDigits_toDigits _ _ _ hc] at h1
  subst h1
  exact ⟨rfl, by simpa using h⟩

/-! ## String literals -/

theorem stringChar_control (n : Nat) (hn : n < 32) (rest : List Char) :
    stringChar (escapeChar (Char.ofNat n) ++ rest) = some (Char.ofNat n, rest) := by
  interval_cases n <;> rfl

/-- Reading back the escape sequence of a character gives the character. -/
theorem stringChar_escapeChar (c : Char) (rest : List Char) :
    stringChar (escapeChar c ++ rest) = some (c, rest) := by
  by_cases h : c.toNat < 32
  · have := stringChar_control c.toNat h rest
    rwa [Char.ofNat_toNat] at this
  · by_cases h1 : c = '"'
    · subst h1; rfl
    · by_cases h2 : c = '\\'
      · subst h2; rfl
      · have e : escapeChar c = [c] := by
          unfold escapeChar
          simp only [h1, h2, if_false]
          have : c.toNat ≠ 8 ∧ c.toNat ≠ 9 ∧ c.toNat ≠ 10 ∧ c.toNat ≠ 12 ∧ c.toNat ≠ 13 := by omega
          simp [this, h]
        rw [e]
        simp [stringChar, h2, h]

theorem escapeChar_head (c : Char) (rest : List Char) :
    (escapeChar c ++ rest).head? ≠ some '"' := by
  unfold escapeChar
  split_ifs with h1 <;> simp_all

theorem escapeChar_length_pos (c : Char) : 0 < (escapeChar c).length := by
  unfold escapeChar hexByte
  split_ifs <;> simp

/-- Reading back an escaped string up to its closing quote gives the string
and the input after the quote. -/
theorem parseStringBody_escape (s : List Char) (rest : List Char) :
    ∀ fuel, s.length < fuel →
      parseStringBody fuel (s.flatMap escapeChar ++ '"' :: rest) = some (s, rest) := by
  induction s with
  | nil =>
    intro fuel h
    cases fuel with
    | zero => omega
    | succ fuel => simp [parseStringBody]
  | cons c s ih =>
    intro fuel h
    cases fuel with
    | zero => omega
    | succ fuel =>
      have ih := ih fuel (by simpa using h)
      simp only [List.flatMap_cons, List.append_assoc]
      rw [parseStringBody, if_neg (escapeChar_head c _), stringChar_escapeChar]
      simp [ih]

theorem length_le_flatMap_escapeChar (s : List Char) :
    s.length ≤ (s.flatMap escapeChar).length := by
  induction s with
  | nil => simp
  | cons c s ih =>
    have := escapeChar_length_pos c
    simp only [List.flatMap_cons, List.length_append, List.length_cons]
    omega

theorem parseString_escape (s : List Char) (rest : List Char) :
    parseString (s.flatMap escapeChar ++ '"' :: rest) = some (s, rest) := by
  unfold parseString
  apply parseStringBody_escape
  have := length_le_flatMap_escapeChar s
  simp only [List.length_append, List.length_cons]
  omega

/-- A quoted string determines the string and what follows it. -/
theorem quote_append_inj {s t : String} {r r' : List Char} (h : quote s ++ r = quote t ++ r') :
    s = t ∧ r = r' := by
  unfold quote at h
  simp only [List.cons_append, List.append_assoc, List.singleton_append, List.cons.injEq,
    true_and] at h
  have h1 := congrArg parseString h
  rw [parseString_escape, parseString_escape] at h1
  simp only [Option.some.injEq, Prod.mk.injEq] at h1
  exact ⟨String.ext h1.1, h1.2⟩

/-! ## The canonical representation of a block -/

theorem toDigits_length_pos (n : Nat) : 0 < (Nat.toDigits 10 n).length := by
  by_cases h : n < 10
  · rw [toDigits_of_lt h]; simp
  · rw [toDigits_of_ge (by omega)]; simp

theorem nullable_append_inj {p q : Option String} {r r' : List Char}
    (h : (nullable p).chars ++ r = (nullable q).chars ++ r') : p = q ∧ r = r' := by
  cases p with
  | none =>
    cases q with
    | none => exact ⟨rfl, by simpa [nullable, JSON.chars] using h⟩
    | some t => simp [nullable, JSON.chars, quote] at h
  | some s =>
    cases q with
    | none => simp [nullable, JSON.chars, quote] at h
    | some t =>
      obtain ⟨h1, h2⟩ := quote_append_inj (by simpa [nullable, JSON.chars] using h)
      exact ⟨by rw [h1], h2⟩

theorem time_append_inj {t u : TimeValue} {r r' : List Char}
    (h : t.toJSON.chars ++ ',' :: r = u.toJSON.chars ++ ',' :: r') : t = u ∧ r = r' := by
  have hq : ∀ (n : Nat) (s : String) (x y : List Char),
      Nat.toDigits 10 n ++ ',' :: x ≠ quote s ++ y := by
    intro n s x y e
    have e1 := congrArg (fun l => (readDigits 10 l 0 0).1) e
    simp only [readDigits_toDigits n ',' x rfl] at e1
    have := toDigits_length_pos n
    rw [e1] at this
    simp [quote, readDigits, digitValue] at this
  cases t with
  | num n =>
    cases u with
    | num m =>
      obtain ⟨h1, h2⟩ := toDigits_append_inj (c := ',') rfl
        (by simpa [TimeValue.toJSON, JSON.chars, intToString] using h)
      exact ⟨by rw [h1], h2⟩
    | str s => exact absurd h (hq n s _ _)
  | str s =>
    cases u with
    | num m => exact absurd h.symm (hq m s _ _)
    | str v =>
      obtain ⟨h1, h2⟩ := quote_append_inj (by simpa [TimeValue.toJSON, JSON.chars] using h)
      exact ⟨by rw [h1], by simpa using h2⟩

/-- The characters of `JSON.stringify(block)`, field by field. -/
theorem Block.toJSON_chars (b : Block) :
    b.toJSON.chars = '{' :: (quote "hash" ++ ':' :: ((nullable b.hash).chars ++ ',' ::
      (quote "height" ++ ':' :: (Nat.toDigits 10 b.height ++ ',' ::
      (quote "body" ++ ':' :: (quote b.body ++ ',' ::
      (quote "time" ++ ':' :: (b.time.toJSON.chars ++ ',' ::
      (quote "previousBlockHash" ++ ':' ::
        ((nullable b.previousBlockHash).chars ++ ['}'])))))))))) := by
  simp [Block.toJSON, JSON.chars, JSON.memberChars, intToString]

/-- Two blocks with the same canonical representation have the same fields. -/
theorem Block.toJSON_stringify_inj {a b : Block} (h : a.toJSON.stringify = b.toJSON.stringify) :
    a = b := by
  have h := congrArg String.data h
  simp only [JSON.stringify] at h
  rw [Block.toJSON_chars, Block.toJSON_chars] at h
  have h := List.append_cancel_left (List.tail_eq_of_cons_eq h)
  obtain ⟨hhash, h⟩ := nullable_append_inj (List.tail_eq_of_cons_eq h)
  have h := List.append_cancel_left (List.tail_eq_of_cons_eq h)
  obtain ⟨hheight, h⟩ := toDigits_append_inj (c := ',') rfl (List.tail_eq_of_cons_eq h)
  have h := List.append_cancel_left h
  obtain ⟨hbody, h⟩ := quote_append_inj (List.tail_eq_of_cons_eq h)
  have h := List.append_cancel_left (List.tail_eq_of_cons_eq h)
  obtain ⟨htime, h⟩ := time_append_inj (List.tail_eq_of_cons_eq h)
  have h := List.append_cancel_left h
  obtain ⟨hprev, -⟩ := nullable_append_inj (List.tail_eq_of_cons_eq h)
  obtain ⟨a1, a2, a3, a4, a5⟩ := a
  obtain ⟨b1, b2, b3, b4, b5⟩ := b
  simp only at hhash hheight hbody htime hprev
  subst hhash hheight hbody htime hprev
  rfl

/-! ## Tampering -/

theorem Block.validate_eq (sha : String → String) (b : Block) :
    b.validate sha = decide (b.hash = some (sha b.canonical)) := rfl

theorem validateStep_mono (sha : String → String) (st : List String × Option (Option String))
    (b : Block) (p : String) (h : p ∈ st.1) : p ∈ (validateStep sha st b).1 := by
  unfold validateStep
  cases hv : b.validate sha <;>
    by_cases hl : (b.height ≠ 0 ∧ some b.previousBlockHash ≠ st.2) <;> simp [hl, h]

theorem validateStep_invalid (sha : String → String) (st : List String × Option (Option String))
    (b : Block) (hb : b.validate sha = false) :
    "Block " ++ hashText b.hash ++ " is invalid" ∈ (validateStep sha st b).1 := by
  unfold validateStep
  by_cases hl : (b.height ≠ 0 ∧ some b.previousBlockHash ≠ st.2) <;> simp [hl, hb]

theorem foldl_validateStep_mono (sha : String → String) (chain : List Block) :
    ∀ (st : List String × Option (Option String)) (p : String), p ∈ st.1 →
      p ∈ (chain.foldl (validateStep sha) st).1 := by
  induction chain with
  | nil => intro st p h; exact h
  | cons b chain ih =>
    intro st p h
    exact ih _ p (validateStep_mono sha st b p h)

/-- Every block that `validate()` refuses is reported by `validateChain()`. -/
theorem foldl_validateStep_invalid (sha : String → String) (b : Block)
    (hb : b.validate sha = false) (chain : List Block) :
    ∀ (st : List String × Option (Option String)), b ∈ chain →
      "Block " ++ hashText b.hash ++ " is invalid" ∈ (chain.foldl (validateStep sha) st).1 := by
  induction chain with
  | nil => intro st h; simp at h
  | cons x chain ih =>
    intro st h
    rcases List.mem_cons.1 h with h | h
    · subst h
      exact foldl_validateStep_mono sha chain _ _ (validateStep_invalid sha st b hb)
    · exact ih _ h

theorem validateChain_invalid (sha : String → String) (bc : Blockchain) (b : Block)
    (hmem : b ∈ bc.chain) (hb : b.validate sha = false) :
    "Block " ++ hashText b.hash ++ " is invalid" ∈ bc.validateChain sha :=
  foldl_validateStep_invalid sha b hb bc.chain _ hmem

/-- In a ledger without problems `validate()` accepts every block. -/
theorem validate_of_validateChain (sha : String → String) (bc : Blockchain)
    (h : bc.validateChain sha = []) (b : Block) (hmem : b ∈ bc.chain) :
    b.validate sha = true := by
  by_contra hb
  have := validateChain_invalid sha bc b hmem (by simpa using hb)
  rw [h] at this
  simp at this

theorem Tamper.canonical_ne (t : Tamper) (b : Block) (hhash : (t.apply b).hash = b.hash)
    (hne : t.apply b ≠ b) : (t.apply b).canonical ≠ b.canonical := by
  intro h
  have h := Block.toJSON_stringify_inj h
  apply hne
  obtain ⟨b1, b2, b3, b4, b5⟩ := b
  cases t <;> simp_all [Tamper.apply]

/-- A block with a valid hash and one field changed is refused by
`validate()`, unless the digest of the changed block collides with that of
the original. -/
theorem Tamper.validate_false (sha : String → String) (t : Tamper) (b : Block)
    (hb : b.validate sha = true) (hne : t.apply b ≠ b)
    (hsha : (t.apply b).canonical ≠ b.canonical → sha (t.apply b).canonical ≠ sha b.canonical) :
    (t.apply b).validate sha = false := by
  rw [Block.validate_eq, decide_eq_true_eq] at hb
  rw [Block.validate_eq, decide_eq_false_iff_not]
  by_cases hhash : (t.apply b).hash = b.hash
  · rw [hhash, hb]
    intro h
    exact hsha (t.canonical_ne b hhash hne) (Option.some.inj h).symm
  · have hc : (t.apply b).canonical = b.canonical := by
      obtain ⟨b1, b2, b3, b4, b5⟩ := b
      cases t <;> first | rfl | exact absurd rfl hhash
    rw [hc, ← hb]
    exact hhash

/-! ### `submitStar` -/

theorem submitStar_invalid (sha : String → String)
    (verify : String → String → String → Option Bool) (bc : Blockchain)
    (address message signature : String) (star : JSON) (now addTime : Nat)
    (h : bc.validateChain sha ≠ []) :
    bc.submitStar sha verify address message signature star now addTime =
      (bc, .rejected (.errorLog (bc.validateChain sha))) := by
  unfold Blockchain.submitStar
  simp [h]

theorem submitStar_valid (sha : String → String)
    (verify : String → String → String → Option Bool) (bc : Blockchain)
    (address message signature : String) (star : JSON) (now addTime : Nat)
    (h : bc.validateChain sha = []) :
    bc.submitStar sha verify address message signature star now addTime =
      if expired message now then (bc, .rejected (.text "5 minute exceeded"))
      else
        match verify message address signature with
        | none => (bc, .pending)
        | some false => (bc, .rejected (.text "Invalid Signature"))
        | some true =>
          ((bc._addBlock sha (Block.new (.obj [("address", .str address), ("star", star)]))
              addTime).1,
            .resolved (bc._addBlock sha
              (Block.new (.obj [("address", .str address), ("star", star)])) addTime).2) := by
  unfold Blockchain.submitStar
  simp [h]

/-- The ledger after `submitStar` is the ledger before it, or that ledger
after `_addBlock` of a fresh block. -/
theorem submitStar_fst (sha : String → String)
    (verify : String → String → String → Option Bool) (bc : Blockchain)
    (address message signature : String) (star : JSON) (now addTime : Nat) :
    (bc.submitStar sha verify address message signature star now addTime).1 = bc ∨
      (bc.submitStar sha verify address message signature star now addTime).1 =
        (bc._addBlock sha (Block.new (.obj [("address", .str address), ("star", star)]))
          addTime).1 := by
  by_cases h : bc.validateChain sha = []
  · rw [submitStar_valid _ _ _ _ _ _ _ _ _ h]
    cases expired message now
    · rcases verify message address signature with _ | _ | _ <;> simp
    · simp
  · rw [submitStar_invalid _ _ _ _ _ _ _ _ _ h]
    simp

theorem expired_iff (message : String) (now : Nat) (m c : Int) (hm : messageTime message = some m)
    (hc : currentTime now = some c) : expired message now = true ↔ c - m > 300 := by
  unfold expired
  simp only [hm, hc, decide_eq_true_eq]
  omega

/-! ### Heights -/

theorem indexed_append_singleton (chain : List Block) (b : Block) (h : Indexed chain)
    (hb : b.height = chain.length) : Indexed (chain ++ [b]) := by
  intro i x hx
  by_cases hi : i < chain.length
  · rw [List.getElem?_append_left hi] at hx
    exact h i x hx
  · rcases List.getElem?_eq_some_iff.1 hx with ⟨hlt, -⟩
    have hi' : i = chain.length := by
      simp only [List.length_append, List.length_singleton] at hlt
      omega
    subst hi'
    simp only [List.getElem?_concat_length, Option.some.injEq] at hx
    rw [← hx, hb]

theorem addBlock_indexed (sha : String → String) (bc : Blockchain) (block : Block) (now : Nat)
    (h : Indexed bc.chain) :
    (bc._addBlock sha block now).1.height = (bc._addBlock sha block now).1.chain.length ∧
      Indexed (bc._addBlock sha block now).1.chain :=
  ⟨rfl, by
    rw [addBlock_chain]
    exact indexed_append_singleton _ _ h (addBlock_height sha bc block now)⟩

/-- In every reachable ledger the counter `height` is the length of the
chain and every block has its position as height. -/
theorem Reachable.indexed {sha : String → String}
    {verify : String → String → String → Option Bool} {bc : Blockchain}
    (h : Reachable sha verify bc) : bc.height = bc.chain.length ∧ Indexed bc.chain := by
  induction h with
  | new now =>
    unfold Blockchain.new Blockchain.initializeChain
    rw [if_pos rfl]
    exact addBlock_indexed sha _ _ now (fun i b hb => by simp at hb)
  | addBlock bc block now _ ih => exact addBlock_indexed sha bc block now ih.2
  | submitStar bc address message signature star now addTime _ ih =>
    rcases submitStar_fst sha verify bc address message signature star now addTime with e | e
    · rw [e]; exact ih
    · rw [e]; exact addBlock_indexed sha bc _ addTime ih.2
  | initializeChain bc now _ ih =>
    unfold Blockchain.initializeChain
    split_ifs
    · exact addBlock_indexed sha bc _ now ih.2
    · exact ih

theorem getBlockByHeight_eq (bc : Blockchain) (height : Int) :
    bc.getBlockByHeight height =
      .resolved (bc.chain.filter fun p => (p.height : Int) = height).head? := by
  unfold Blockchain.getBlockByHeight
  cases (bc.chain.filter fun p => (p.height : Int) = height).head? <;> rfl

theorem addBlock_body (sha : String → String) (bc : Blockchain) (block : Block) (now : Nat) :
    (bc._addBlock sha block now).2.body = block.body := by
  unfold Blockchain._addBlock
  cases bc.chain.getLast? <;> rfl

theorem filter_height_head (chain : List Block) (hidx : Indexed chain) (h : Int) :
    (0 ≤ h → h < chain.length →
        ∃ b, (chain.filter fun p => (p.height : Int) = h).head? = some b ∧ (b.height : Int) = h) ∧
      (h = chain.length → (chain.filter fun p => (p.height : Int) = h).head? = none) := by
  constructor
  · intro h0 hlt
    cases hf : (chain.filter fun p => (p.height : Int) = h).head? with
    | some b =>
      have hmem : b ∈ chain.filter fun p => (p.height : Int) = h := List.mem_of_mem_head? hf
      exact ⟨b, rfl, by simpa using (List.mem_filter.1 hmem).2⟩
    | none =>
      exfalso
      rw [List.head?_eq_none_iff] at hf
      have hi : h.toNat < chain.length := by omega
      have hx : chain[h.toNat]? = some chain[h.toNat] := List.getElem?_eq_getElem hi
      have hh := hidx _ _ hx
      have hmem : chain[h.toNat] ∈ chain.filter fun p => (p.height : Int) = h := by
        rw [List.mem_filter]
        refine ⟨List.getElem_mem _, ?_⟩
        simp only [hh, decide_eq_true_eq]
        omega
      rw [hf] at hmem
      simp at hmem
  · intro he
    rw [List.head?_eq_none_iff, List.filter_eq_nil_iff]
    intro b hb
    obtain ⟨i, hi⟩ := List.mem_iff_getElem?.1 hb
    have hh := hidx i b hi
    rcases List.getElem?_eq_some_iff.1 hi with ⟨hlt, -⟩
    simp only [decide_eq_true_eq]
    omega

/-! ### Lookup by hash -/

/-- A filter is empty, or starts at the first element that passes it. -/
theorem filter_first {α : Type} (p : α → Bool) (l : List α) :
    (l.filter p = [] ∧ ∀ x ∈ l, p x = false) ∨
      ∃ pre x post, l = pre ++ x :: post ∧ p x = true ∧ (∀ y ∈ pre, p y = false) ∧
        l.filter p = x :: post.filter p := by
  induction l with
  | nil => exact Or.inl ⟨rfl, fun x hx => by simp at hx⟩
  | cons a l ih =>
    cases ha : p a
    · rcases ih with ⟨h1, h2⟩ | ⟨pre, x, post, h1, h2, h3, h4⟩
      · refine Or.inl ⟨by simp [ha, h1], fun x hx => ?_⟩
        rcases List.mem_cons.1 hx with rfl | hx
        · exact ha
        · exact h2 x hx
      · refine Or.inr ⟨a :: pre, x, post, by simp [h1], h2, fun y hy => ?_, by simp [ha, h4]⟩
        rcases List.mem_cons.1 hy with rfl | hy
        · exact ha
        · exact h3 y hy
    · exact Or.inr ⟨[], a, l, rfl, ha, fun y hy => by simp at hy, by simp [ha]⟩

/-! ### Links -/

theorem linked_append_singleton (chain : List Block) (b last : Block) (h : Linked chain)
    (hlast : chain.getLast? = some last) (hb : b.previousBlockHash = last.hash) :
    Linked (chain ++ [b]) := by
  have hne : chain ≠ [] := by
    intro e
    rw [e] at hlast
    simp at hlast
  have hpos : 0 < chain.length := List.length_pos.2 hne
  have hl : chain[chain.length - 1]? = some last := by
    rw [← hlast, List.getLast?_eq_getElem?]
  constructor
  · intro x hx
    rw [List.getElem?_append_left hpos] at hx
    exact h.1 x hx
  · intro i x p hx hp
    by_cases hi : i + 1 < chain.length
    · rw [List.getElem?_append_left hi] at hx
      rw [List.getElem?_append_left (by omega)] at hp
      exact h.2 i x p hx hp
    · rcases List.getElem?_eq_some_iff.1 hx with ⟨hlt, -⟩
      simp only [List.length_append, List.length_singleton] at hlt
      have hi' : i + 1 = chain.length := by omega
      rw [hi', List.getElem?_concat_length] at hx
      rw [List.getElem?_append_left (by omega), show i = chain.length - 1 by omega, hl] at hp
      cases hx
      cases hp
      exact hb

theorem addBlock_previous_none (sha : String → String) (bc : Blockchain) (block : Block)
    (now : Nat) (h : bc.chain = []) :
    (bc._addBlock sha block now).2.previousBlockHash = block.previousBlockHash := by
  unfold Blockchain._addBlock
  simp [h]

theorem addBlock_linked (sha : String → String) (bc : Blockchain) (block : Block) (now : Nat)
    (hne : bc.chain ≠ []) (h : Linked bc.chain) :
    (bc._addBlock sha block now).1.chain ≠ [] ∧ Linked (bc._addBlock sha block now).1.chain := by
  rw [addBlock_chain]
  refine ⟨by simp, ?_⟩
  cases hl : bc.chain.getLast? with
  | none => exact absurd (List.getLast?_eq_none_iff.1 hl) hne
  | some last =>
    exact linked_append_singleton _ _ last h hl (addBlock_previous sha bc block now last hl)

theorem new_chain (sha : String → String) (now : Nat) :
    (Blockchain.new sha now).chain =
      [(Blockchain.initial._addBlock sha (Block.new (.obj [("data", .str "Genesis Block")]))
        now).2] := rfl

theorem new_linked (sha : String → String) (now : Nat) :
    (Blockchain.new sha now).chain ≠ [] ∧ Linked (Blockchain.new sha now).chain := by
  rw [new_chain]
  refine ⟨by simp, ?_, ?_⟩
  · intro b hb
    simp only [List.getElem?_cons_zero, Option.some.injEq] at hb
    rw [← hb]
    rfl
  · intro i b p hb
    simp at hb

/-- In every reachable ledger the chain is not empty and its blocks are
linked. -/
theorem Reachable.linked {sha : String → String}
    {verify : String → String → String → Option Bool} {bc : Blockchain}
    (h : Reachable sha verify bc) : bc.chain ≠ [] ∧ Linked bc.chain := by
  induction h with
  | new now => exact new_linked sha now
  | addBlock bc block now _ ih => exact addBlock_linked sha bc block now ih.1 ih.2
  | submitStar bc address message signature star now addTime _ ih =>
    rcases submitStar_fst sha verify bc address message signature star now addTime with e | e
    · rw [e]; exact ih
    · rw [e]; exact addBlock_linked sha bc _ addTime ih.1 ih.2
  | initializeChain bc now _ ih =>
    unfold Blockchain.initializeChain
    split_ifs
    · exact addBlock_linked sha bc _ now ih.1 ih.2
    · exact ih

/-- On a reachable ledger `initializeChain()` changes nothing. -/
theorem Reachable.initializeChain_eq {sha : String → String}
    {verify : String → String → String → Option Bool} {bc : Blockchain}
    (h : Reachable sha verify bc) (now : Nat) : bc.initializeChain sha now = bc := by
  unfold Blockchain.initializeChain
  have hh := h.indexed.1
  rw [if_neg]
  rw [hh]
  omega

/-- In a chain whose blocks have their position as height, exactly the first
block has height 0. -/
theorem indexed_filter_zero (chain : List Block) (hne : chain ≠ []) (h : Indexed chain) :
    (chain.filter fun b => b.height = 0).length = 1 := by
  cases chain with
  | nil => exact absurd rfl hne
  | cons g rest =>
    have hg : g.height = 0 := h 0 g (by simp)
    have hrest : rest.filter (fun b => decide (b.height = 0)) = [] := by
      rw [List.filter_eq_nil_iff]
      intro b hb
      obtain ⟨i, hi⟩ := List.mem_iff_getElem?.1 hb
      have := h (i + 1) b (by simpa using hi)
      simp [this]
    simp [hg, hrest]

/-! ### Challenges and their timestamp -/

/-- From one second on, dropping the last three digits of the clock reading
leaves the numeral of the whole seconds. -/
theorem sliceSeconds_eq {now : Nat} (h : 1000 ≤ now) :
    sliceSeconds now = ⟨Nat.toDigits 10 (now / 1000)⟩ := by
  unfold sliceSeconds
  have e : Nat.toDigits 10 now =
      Nat.toDigits 10 (now / 1000) ++
        [Nat.digitChar (now / 100 % 10), Nat.digitChar (now / 10 % 10),
          Nat.digitChar (now % 10)] := by
    rw [toDigits_of_ge (n := now) (by omega), toDigits_of_ge (n := now / 10) (by omega),
      toDigits_of_ge (n := now / 10 / 10) (by omega)]
    simp only [List.append_assoc, List.singleton_append, Nat.div_div_eq_div_mul]
    norm_num
  rw [e]
  simp

/-- Before the first whole second the slice is empty. -/
theorem sliceSeconds_lt {now : Nat} (h : now < 1000) : sliceSeconds now = "" := by
  unfold sliceSeconds
  have hl : (Nat.toDigits 10 now).length ≤ 3 := by
    by_cases h1 : now < 10
    · rw [toDigits_of_lt h1]; simp
    · rw [toDigits_of_ge (by omega)]
      by_cases h2 : now / 10 < 10
      · rw [toDigits_of_lt h2]; simp
      · rw [toDigits_of_ge (by omega), toDigits_of_lt (n := now / 10 / 10) (by omega)]; simp
  rw [Nat.sub_eq_zero_of_le hl]
  rfl

theorem digitChar_ne_of_digit {d : Nat} (hd : d < 10) {c : Char}
    (hc : ∀ e, e < 10 → digitValue c ≠ some e) : Nat.digitChar d ≠ c := by
  intro e
  exact hc d hd (by rw [← e, digitValue_digitChar hd])

theorem isWhiteSpace_digitChar {d : Nat} (hd : d < 10) : isWhiteSpace (Nat.digitChar d) = false := by
  interval_cases d <;> rfl

/-- The function `parseInt` reads a decimal numeral back. -/
theorem parseInt_toDigits (n : Nat) : parseInt ⟨Nat.toDigits 10 n⟩ 0 = some (n : Int) := by
  have hpos := toDigits_length_pos n
  obtain ⟨c, cs, hcs⟩ : ∃ c cs, Nat.toDigits 10 n = c :: cs := by
    cases h : Nat.toDigits 10 n with
    | nil => rw [h] at hpos; simp at hpos
    | cons c cs => exact ⟨c, cs, rfl⟩
  obtain ⟨d, hd, hc⟩ := toDigits_digit n c (by rw [hcs]; simp)
  have hread : readDigits 10 (Nat.toDigits 10 n) 0 0 = ((Nat.toDigits 10 n).length, n) := by
    have := readDigits_append _ (toDigits_digit n) [] 0 0
    rw [List.append_nil] at this
    rw [this, digitsValue_toDigits]
    simp [readDigits]
  have hx : cs.head? ≠ some 'x' ∧ cs.head? ≠ some 'X' := by
    cases cs with
    | nil => simp
    | cons c2 cs2 =>
      obtain ⟨d2, hd2, hc2⟩ := toDigits_digit n c2 (by rw [hcs]; simp)
      simp only [List.head?_cons, ne_eq, Option.some.injEq, hc2]
      exact ⟨digitChar_ne_of_digit hd2 (by decide), digitChar_ne_of_digit hd2 (by decide)⟩
  have htrim : trimStart (Nat.toDigits 10 n) = Nat.toDigits 10 n := by
    rw [hcs, trimStart, hc, isWhiteSpace_digitChar hd]
    simp
  have hsign : c ≠ '-' ∧ c ≠ '+' := by
    rw [hc]
    exact ⟨digitChar_ne_of_digit hd (by decide), digitChar_ne_of_digit hd (by decide)⟩
  have hmark : ¬ ((Nat.toDigits 10 n).take 2 = ['0', 'x'] ∨ (Nat.toDigits 10 n).take 2 = ['0', 'X']) := by
    rw [hcs]
    cases cs with
    | nil => simp
    | cons c2 cs2 =>
      simp only [List.head?_cons, ne_eq, Option.some.injEq] at hx
      simp [hx.1, hx.2]
  unfold parseInt
  simp only [htrim]
  have hhead : (Nat.toDigits 10 n).head? = some c := by rw [hcs]; rfl
  simp only [hhead, Option.some.injEq, hsign.1, hsign.2, or_self, if_false, hmark, and_false,
    ne_eq, not_true_eq_false, false_and, decide_False, Bool.false_eq_true]
  have : ¬ (Nat.toDigits 10 n).length = 0 := by omega
  simp [hread, this]

theorem splitChars_ne_nil (sep : Char) (cs : List Char) : splitChars sep cs ≠ [] := by
  cases cs with
  | nil => simp [splitChars]
  | cons c cs =>
    rw [splitChars]
    cases splitChars sep cs <;> simp
    split_ifs <;> simp

/-- A segment without the separator, followed by the separator, is the first
segment of the split. -/
theorem splitChars_append (sep : Char) (a rest : List Char) (ha : sep ∉ a) :
    splitChars sep (a ++ sep :: rest) = a :: splitChars sep rest := by
  induction a with
  | nil =>
    simp only [List.nil_append]
    rw [splitChars]
    cases h : splitChars sep rest with
    | nil => exact absurd h (splitChars_ne_nil sep rest)
    | cons seg segs => simp
  | cons c a ih =>
    have hc : c ≠ sep := fun e => ha (by simp [e])
    have ih := ih (fun h => ha (List.mem_cons_of_mem _ h))
    simp only [List.cons_append]
    rw [splitChars, ih]
    simp [hc]

theorem toDigits_no_colon (n : Nat) : ':' ∉ Nat.toDigits 10 n := by
  intro h
  obtain ⟨d, hd, hc⟩ := toDigits_digit n ':' h
  exact digitChar_ne_of_digit hd (c := ':') (by decide) hc.symm

/-- The second field of `address:digits:rest` is the numeral, when the
address has no colon. -/
theorem splitAt_challenge (address rest : String) (n : Nat) (ha : ':' ∉ address.data) :
    splitAt (address ++ ":" ++ ⟨Nat.toDigits 10 n⟩ ++ ":" ++ rest) ':' 1 =
      some ⟨Nat.toDigits 10 n⟩ := by
  unfold splitAt
  have e : (address ++ ":" ++ (⟨Nat.toDigits 10 n⟩ : String) ++ ":" ++ rest).data =
      address.data ++ ':' :: (Nat.toDigits 10 n ++ ':' :: rest.data) := by
    simp [String.data_append]
  rw [e, splitChars_append _ _ _ ha, splitChars_append _ _ _ (toDigits_no_colon n)]
  rfl

theorem messageTime_challenge (address rest : String) (n : Nat) (ha : ':' ∉ address.data) :
    messageTime (address ++ ":" ++ ⟨Nat.toDigits 10 n⟩ ++ ":" ++ rest) = some (n : Int) := by
  unfold messageTime
  rw [splitAt_challenge address rest n ha]
  exact parseInt_toDigits n

theorem currentTime_eq {now : Nat} (h : 1000 ≤ now) : currentTime now = some ((now / 1000 : Nat) : Int) := by
  unfold currentTime
  rw [sliceSeconds_eq h]
  exact parseInt_toDigits _

theorem currentTime_lt {now : Nat} (h : now < 1000) : currentTime now = none := by
  unfold currentTime
  rw [sliceSeconds_lt h]
  rfl

theorem Blockchain.new_eq (sha : String → String) (now : Nat) :
    Blockchain.new sha now = Blockchain.initial.initializeChain sha now := rfl

theorem expired_challenge (a : String) (issued now : Nat) (ha : ':' ∉ a.data)
    (hwin : now / 1000 ≤ issued / 1000 + 300) :
    expired (a ++ ":" ++ ⟨Nat.toDigits 10 (issued / 1000)⟩ ++ ":" ++ "starRegistry") now = false := by
  unfold expired
  rw [messageTime_challenge a "starRegistry" _ ha]
  by_cases hn : 1000 ≤ now
  · rw [currentTime_eq hn]
    simp only [decide_eq_false_iff_not]
    omega
  · rw [currentTime_lt (by omega)]

/-- The hash `_addBlock` assigns is the digest of the block as it is at that
moment, with the hash it came in with. -/
theorem addBlock_hash (sha : String → String) (bc : Blockchain) (block : Block) (now : Nat) :
    (bc._addBlock sha block now).2.hash =
      some (sha ({ (bc._addBlock sha block now).2 with hash := block.hash }).toJSON.stringify) := by
  unfold Blockchain._addBlock
  cases bc.chain.getLast? <;> rfl

/-! ### The loop of `getStarsByWalletAddress` -/

/-- A loop with an element whose callback is never resolved is not
resolved. -/
theorem asyncForEach_not_resolved {α σ ε : Type} (callback : σ → α → Nat → Settled σ ε)
    (l : List α) : ∀ (index : Nat) (state : σ) (j : Nat) (x : α), l[j]? = some x →
      (∀ s s', callback s x (index + j) ≠ .resolved s') →
      ∀ s', asyncForEach callback l index state ≠ .resolved s' := by
  induction l with
  | nil => intro index state j x hx; simp at hx
  | cons y l ih =>
    intro index state j x hx hcb s'
    rw [asyncForEach]
    cases j with
    | zero =>
      simp only [List.getElem?_cons_zero, Option.some.injEq] at hx
      subst hx
      cases hc : callback state y index with
      | resolved s1 => exact absurd hc (hcb state s1)
      | rejected e => simp
      | pending => simp
    | succ j =>
      cases hc : callback state y index with
      | resolved s1 =>
        simp only
        refine ih (index + 1) s1 j x (by simpa using hx) (fun s s'' => ?_) s'
        rw [show index + 1 + j = index + (j + 1) by omega]
        exact hcb s s''
      | rejected e => simp
      | pending => simp

theorem getBData_undecodable (b : Block) (h : JSON.parse (hex2ascii b.body) = none) :
    ∀ data, b.getBData ≠ .resolved data := by
  intro data
  unfold Block.getBData
  simp only [h]
  by_cases h0 : b.height = 0 <;> simp [h0, Settled.settle]

/-! ## Reading a body back -/

theorem char_toNat_lt (c : Char) : c.toNat < 0x110000 := by
  have h := c.valid
  unfold UInt32.isValidChar Nat.isValidChar at h
  unfold Char.toNat
  omega

theorem toNat_ofNat_of_lt {n : Nat} (h : n < 0xd800) : (Char.ofNat n).toNat = n := by
  unfold Char.ofNat
  rw [dif_pos (Or.inl h)]
  rfl

theorem utf8Char_bounds (c : Char) :
    ∀ b ∈ utf8Char c, b < 256 ∧ (c.toNat ≠ 0 → b ≠ 0) ∧ (128 ≤ c.toNat → 128 ≤ b) := by
  have hc := char_toNat_lt c
  intro b hb
  unfold utf8Char at hb
  simp only at hb
  split_ifs at hb <;> simp only [List.mem_cons, List.mem_singleton, List.not_mem_nil, or_false] at hb <;>
    omega

theorem utf8Char_ascii {c : Char} (h : c.toNat < 128) : utf8Char c = [c.toNat] := by
  unfold utf8Char
  simp [h]

theorem pairs_flatMap_hexByte (bs : List Nat) : pairs (bs.flatMap hexByte) = bs.map hexByte := by
  induction bs with
  | nil => rfl
  | cons b bs ih =>
    simp only [List.flatMap_cons, List.map_cons]
    show pairs (Nat.digitChar (b / 16 % 16) :: Nat.digitChar (b % 16) :: bs.flatMap hexByte) = _
    rw [pairs, ih]
    rfl

theorem isWhiteSpace_hexDigit {d : Nat} (hd : d < 16) : isWhiteSpace (Nat.digitChar d) = false := by
  interval_cases d <;> rfl

theorem filter_hexByte (bs : List Nat) :
    (bs.flatMap hexByte).filter (fun c => !isWhiteSpace c) = bs.flatMap hexByte := by
  rw [List.filter_eq_self]
  intro c hc
  obtain ⟨b, -, hb⟩ := List.mem_flatMap.1 hc
  unfold hexByte at hb
  rcases List.mem_cons.1 hb with rfl | hb
  · simp [isWhiteSpace_hexDigit (Nat.mod_lt _ (by decide : 0 < 16))]
  · rw [List.mem_singleton] at hb
    subst hb
    simp [isWhiteSpace_hexDigit (Nat.mod_lt _ (by decide : 0 < 16))]

set_option maxRecDepth 100000 in
theorem parseInt_hexByte : ∀ b, b < 256 → parseInt ⟨hexByte b⟩ 16 = some (b : Int) := by
  decide

/-- What `hex2ascii` makes of the hexadecimal text of bytes between 1 and
255. -/
theorem hex2ascii_bytes (bs : List Nat) (h : ∀ b ∈ bs, b < 256 ∧ b ≠ 0) :
    hex2ascii ⟨bs.flatMap hexByte⟩ = ⟨bs.map Char.ofNat⟩ := by
  unfold hex2ascii
  simp only [filter_hexByte, pairs_flatMap_hexByte]
  congr 1
  induction bs with
  | nil => rfl
  | cons b bs ih =>
    obtain ⟨hb1, hb2⟩ := h b (List.mem_cons_self _ _)
    have ih := ih (fun x hx => h x (List.mem_cons_of_mem _ hx))
    simp only [List.map_cons, List.filterMap_cons, parseInt_hexByte b hb1]
    have h0 : ¬ (b : Int) = 0 := by omega
    have hm : ((b : Int) % 65536).toNat = b := by omega
    simp only [h0, if_false, hm, ih]

/-- The function `hex2ascii` applied to the body the constructor writes for a
text without the character U+0000. -/
theorem hex2ascii_bufferHex (s : String) (h : ∀ c ∈ s.data, c.toNat ≠ 0) :
    hex2ascii (bufferHex s) = ⟨latin1 s.data⟩ := by
  unfold bufferHex latin1
  apply hex2ascii_bytes
  intro b hb
  obtain ⟨c, hc, hbc⟩ := List.mem_flatMap.1 hb
  obtain ⟨h1, h2, -⟩ := utf8Char_bounds c b hbc
  exact ⟨h1, h2 (h c hc)⟩

theorem latin1_append (a b : List Char) : latin1 (a ++ b) = latin1 a ++ latin1 b := by
  simp [latin1]

theorem latin1_cons (c : Char) (cs : List Char) : latin1 (c :: cs) = latin1 [c] ++ latin1 cs := by
  simp [latin1]

theorem latin1_nil : latin1 [] = [] := rfl

theorem latin1_ascii {c : Char} (h : c.toNat < 128) : latin1 [c] = [c] := by
  simp [latin1, utf8Char_ascii h]

theorem latin1_cons_ascii {c : Char} (h : c.toNat < 128) (cs : List Char) :
    latin1 (c :: cs) = c :: latin1 cs := by
  rw [latin1_cons, latin1_ascii h]
  rfl

theorem latin1_of_ascii (cs : List Char) (h : ∀ c ∈ cs, c.toNat < 128) : latin1 cs = cs := by
  induction cs with
  | nil => rfl
  | cons c cs ih =>
    rw [latin1_cons_ascii (h c (List.mem_cons_self _ _)),
      ih (fun x hx => h x (List.mem_cons_of_mem _ hx))]

theorem utf8Char_length_pos (c : Char) : 0 < (utf8Char c).length := by
  unfold utf8Char
  simp only
  split_ifs <;> simp

theorem length_le_latin1 (cs : List Char) : cs.length ≤ (latin1 cs).length := by
  induction cs with
  | nil => simp [latin1]
  | cons c cs ih =>
    rw [latin1_cons, List.length_append]
    have : 0 < (latin1 [c]).length := by
      simp only [latin1, List.flatMap_cons, List.flatMap_nil, List.append_nil, List.length_map]
      exact utf8Char_length_pos c
    simp only [List.length_cons]
    omega

theorem escapeChar_plain {c : Char} (h1 : c ≠ '"') (h2 : c ≠ '\\') (h3 : 32 ≤ c.toNat) :
    escapeChar c = [c] := by
  unfold escapeChar
  simp only [h1, h2, if_false]
  have : c.toNat ≠ 8 ∧ c.toNat ≠ 9 ∧ c.toNat ≠ 10 ∧ c.toNat ≠ 12 ∧ c.toNat ≠ 13 ∧
      ¬ c.toNat < 32 := by omega
  simp [this]

theorem hexDigit_toNat {d : Nat} (hd : d < 16) :
    (Nat.digitChar d).toNat < 128 ∧ (Nat.digitChar d).toNat ≠ 0 := by
  interval_cases d <;> decide

/-- The escape sequence of an ASCII character is ASCII, and no escape
sequence contains the character U+0000. -/
theorem escapeChar_chars (c : Char) :
    ∀ d ∈ escapeChar c, d.toNat ≠ 0 ∧ (c.toNat < 128 → d.toNat < 128) := by
  have h16 : ∀ n : Nat, (Nat.digitChar (n % 16)).toNat < 128 ∧ (Nat.digitChar (n % 16)).toNat ≠ 0 :=
    fun n => hexDigit_toNat (Nat.mod_lt _ (by decide))
  have hk : ∀ d : Char, d.toNat < 128 → d.toNat ≠ 0 →
      d.toNat ≠ 0 ∧ (c.toNat < 128 → d.toNat < 128) := fun d a b => ⟨b, fun _ => a⟩
  intro d hd
  unfold escapeChar hexByte at hd
  split_ifs at hd with h1 h2 h3 h4 h5 h6 h7 h8
  all_goals
    simp only [List.mem_cons, List.mem_singleton, List.not_mem_nil, or_false, List.cons_append,
      List.nil_append] at hd
  · rcases hd with rfl | rfl <;> exact hk _ (by decide) (by decide)
  · rcases hd with rfl | rfl <;> exact hk _ (by decide) (by decide)
  · rcases hd with rfl | rfl <;> exact hk _ (by decide) (by decide)
  · rcases hd with rfl | rfl <;> exact hk _ (by decide) (by decide)
  · rcases hd with rfl | rfl <;> exact hk _ (by decide) (by decide)
  · rcases hd with rfl | rfl <;> exact hk _ (by decide) (by decide)
  · rcases hd with rfl | rfl <;> exact hk _ (by decide) (by decide)
  · rcases hd with rfl | rfl | rfl | rfl | rfl | rfl
    · exact hk _ (by decide) (by decide)
    · exact hk _ (by decide) (by decide)
    · exact hk _ (by decide) (by decide)
    · exact hk _ (by decide) (by decide)
    · exact ⟨(h16 _).2, fun _ => (h16 _).1⟩
    · exact ⟨(h16 _).2, fun _ => (h16 _).1⟩
  · subst hd
    exact ⟨by omega, fun h => h⟩

theorem flatMap_eq_self {α : Type} (f : α → List α) (l : List α) (h : ∀ x ∈ l, f x = [x]) :
    l.flatMap f = l := by
  induction l with
  | nil => rfl
  | cons a l ih =>
    rw [List.flatMap_cons, h a (List.mem_cons_self _ _),
      ih (fun x hx => h x (List.mem_cons_of_mem _ hx))]
    rfl

theorem latin1_escapeChar (c : Char) :
    latin1 (escapeChar c) = (latin1 [c]).flatMap escapeChar := by
  by_cases h : c.toNat < 128
  · rw [latin1_ascii h, latin1_of_ascii _ (fun d hd => (escapeChar_chars c d hd).2 h)]
    simp
  · have h1 : c ≠ '"' := fun e => h (by rw [e]; decide)
    have h2 : c ≠ '\\' := fun e => h (by rw [e]; decide)
    rw [escapeChar_plain h1 h2 (by omega)]
    symm
    apply flatMap_eq_self
    intro x hx
    simp only [latin1, List.flatMap_cons, List.flatMap_nil, List.append_nil, List.mem_map] at hx
    obtain ⟨b, hb, rfl⟩ := hx
    obtain ⟨hb1, -, hb3⟩ := utf8Char_bounds c b hb
    have hb3 := hb3 (by omega)
    have ht : (Char.ofNat b).toNat = b := toNat_ofNat_of_lt (by omega)
    apply escapeChar_plain
    · intro e
      rw [e] at ht
      have : ('"' : Char).toNat = 34 := rfl
      omega
    · intro e
      rw [e] at ht
      have : ('\\' : Char).toNat = 92 := rfl
      omega
    · omega

theorem latin1_flatMap_escapeChar (s : List Char) :
    latin1 (s.flatMap escapeChar) = (latin1 s).flatMap escapeChar := by
  induction s with
  | nil => rfl
  | cons c s ih =>
    rw [List.flatMap_cons, latin1_append, latin1_escapeChar, ih, latin1_cons c s,
      List.flatMap_append]

/-- Reading a quoted string byte by byte gives the quoted string of the
bytes. -/
theorem latin1_quote (s : String) : latin1 (quote s) = quote ⟨latin1 s.data⟩ := by
  unfold quote
  rw [latin1_cons_ascii (by decide), latin1_append, latin1_flatMap_escapeChar,
    latin1_ascii (by decide)]

theorem quote_no_nul (s : String) : ∀ c ∈ quote s, c.toNat ≠ 0 := by
  intro c hc
  unfold quote at hc
  simp only [List.mem_cons, List.mem_append, List.mem_flatMap, List.mem_singleton,
    List.not_mem_nil, or_false] at hc
  rcases hc with rfl | ⟨x, -, hx⟩ | rfl
  · decide
  · exact (escapeChar_chars x c hx).1
  · decide

theorem digitChar_toNat {d : Nat} (hd : d < 10) : (Nat.digitChar d).toNat = 48 + d := by
  interval_cases d <;> rfl

theorem intToString_chars (n : Int) : ∀ c ∈ intToString n, c.toNat < 128 ∧ c.toNat ≠ 0 := by
  have hdig : ∀ (k : Nat) (c : Char), c ∈ Nat.toDigits 10 k → c.toNat < 128 ∧ c.toNat ≠ 0 := by
    intro k c hc
    obtain ⟨d, hd, rfl⟩ := toDigits_digit k c hc
    rw [digitChar_toNat hd]
    omega
  intro c hc
  cases n with
  | ofNat k => exact hdig k c hc
  | negSucc k =>
    rcases List.mem_cons.1 hc with rfl | hc
    · decide
    · exact hdig _ c hc

/-! ### Reading a serialisation back -/

theorem toDigits_head (n : Nat) :
    ∃ d cs, d < 10 ∧ Nat.toDigits 10 n = Nat.digitChar d :: cs ∧ (d = 0 → cs = []) := by
  induction n using Nat.strong_induction_on with
  | _ n ih =>
    by_cases h : n < 10
    · exact ⟨n, [], h, toDigits_of_lt h, fun _ => rfl⟩
    · obtain ⟨d, cs, hd, hcs, h0⟩ := ih (n / 10) (Nat.div_lt_self (by omega) (by decide))
      refine ⟨d, cs ++ [Nat.digitChar (n % 10)], hd, ?_, ?_⟩
      · rw [toDigits_of_ge (by omega), hcs]
        rfl
      · intro hd0
        exfalso
        have hcs0 := h0 hd0
        rw [hcs0, hd0] at hcs
        have := digitsValue_toDigits (n / 10)
        rw [hcs] at this
        simp [digitsValue, digitValue_digitChar (by decide : 0 < 10)] at this
        omega

theorem readDigits_run (ds tail : List Char) (seen acc : Nat)
    (hds : ∀ c ∈ ds, ∃ d, d < 10 ∧ c = Nat.digitChar d)
    (ht : ∀ c, tail.head? = some c → ∀ d, digitValue c = some d → 10 ≤ d) :
    readDigits 10 (ds ++ tail) seen acc = (seen + ds.length, digitsValue acc ds) := by
  rw [readDigits_append ds hds]
  cases tail with
  | nil => rfl
  | cons c r =>
    have := ht c rfl
    unfold readDigits
    cases hc : digitValue c with
    | none => rfl
    | some d =>
      have := this d hc
      simp only
      rw [if_neg (by omega)]

/-- The part of `parseNumber` after the sign, on a numeral made of the digits
`ip`, the fraction `fp` if it is not empty, and `tail`, which holds the
exponent if there is one. -/
theorem parseNumber_unsigned (neg : Bool) (ip fp tail rest : List Char) (x : Int)
    (hip : ∀ c ∈ ip, ∃ d, d < 10 ∧ c = Nat.digitChar d)
    (hfp : ∀ c ∈ fp, ∃ d, d < 10 ∧ c = Nat.digitChar d)
    (hne : ip ≠ []) (hz : 1 < ip.length → ip.head? ≠ some '0')
    (hx : readExponent tail = some (x, rest))
    (hnd : ∀ c, tail.head? = some c → ∀ d, digitValue c = some d → 10 ≤ d)
    (hdot : tail.head? ≠ some '.') :
    (let ds := ip ++ ((if fp = [] then [] else '.' :: fp) ++ tail)
      let (seen, value) := readDigits 10 ds 0 0
      let rest := ds.drop seen
      if seen = 0 ∨ (1 < seen ∧ ds.head? = some '0') then none
      else
        match readFraction rest value with
        | none => none
        | some (places, mantissa, rest1) =>
          match readExponent rest1 with
          | none => none
          | some (exponent, rest2) => some (numberValue neg mantissa (exponent - places), rest2)) =
      some (numberValue neg (digitsValue (digitsValue 0 ip) fp) (x - fp.length), rest) := by
  have hlen : 0 < ip.length := List.length_pos.2 hne
  have hrun : readDigits 10 (ip ++ ((if fp = [] then [] else '.' :: fp) ++ tail)) 0 0 =
      (ip.length, digitsValue 0 ip) := by
    rw [readDigits_run ip _ 0 0 hip]
    · simp
    · intro c hc d hd
      by_cases hf : fp = []
      · rw [if_pos hf] at hc
        exact hnd c (by simpa using hc) d hd
      · rw [if_neg hf] at hc
        simp only [List.cons_append, List.head?_cons, Option.some.injEq] at hc
        subst hc
        have h0 : digitValue '.' = none := rfl
        rw [h0] at hd
        cases hd
  have hcond : ¬ (ip.length = 0 ∨ (1 < ip.length ∧
      (ip ++ ((if fp = [] then [] else '.' :: fp) ++ tail)).head? = some '0')) := by
    rintro (h | ⟨h1, h2⟩)
    · omega
    · apply hz h1
      cases ip with
      | nil => exact absurd rfl hne
      | cons a as => simpa using h2
  simp only [hrun, List.drop_left, if_neg hcond]
  by_cases hf : fp = []
  · subst hf
    have hfr : readFraction tail (digitsValue 0 ip) = some (0, digitsValue 0 ip, tail) := by
      unfold readFraction
      rw [if_neg hdot]
    simp only [if_true, List.nil_append, hfr, hx]
    rfl
  · have hfr : readFraction ('.' :: fp ++ tail) (digitsValue 0 ip) =
        some (fp.length, digitsValue (digitsValue 0 ip) fp, tail) := by
      unfold readFraction
      simp only [List.cons_append, List.head?_cons, if_true, List.tail_cons]
      rw [readDigits_run fp tail 0 _ hfp hnd]
      have : fp.length ≠ 0 := fun h => hf (List.length_eq_zero.1 h)
      simp [this]
    simp only [if_neg hf, hfr, hx]

theorem digitChar_ne_minus {d : Nat} (hd : d < 10) : Nat.digitChar d ≠ '-' :=
  digitChar_ne_of_digit hd (by decide)

/-- A numeral with its sign is read back as the number it denotes. -/
theorem parseNumber_numeral (neg : Bool) (ip fp tail rest : List Char) (x : Int)
    (hip : ∀ c ∈ ip, ∃ d, d < 10 ∧ c = Nat.digitChar d)
    (hfp : ∀ c ∈ fp, ∃ d, d < 10 ∧ c = Nat.digitChar d)
    (hne : ip ≠ []) (hz : 1 < ip.length → ip.head? ≠ some '0')
    (hx : readExponent tail = some (x, rest))
    (hnd : ∀ c, tail.head? = some c → ∀ d, digitValue c = some d → 10 ≤ d)
    (hdot : tail.head? ≠ some '.') :
    parseNumber ((if neg then ['-'] else []) ++
        (ip ++ ((if fp = [] then [] else '.' :: fp) ++ tail))) =
      some (numberValue neg (digitsValue (digitsValue 0 ip) fp) (x - fp.length), rest) := by
  have h := parseNumber_unsigned neg ip fp tail rest x hip hfp hne hz hx hnd hdot
  have hhead : (ip ++ ((if fp = [] then [] else '.' :: fp) ++ tail)).head? ≠ some '-' := by
    cases ip with
    | nil => exact absurd rfl hne
    | cons a as =>
      obtain ⟨d, hd, rfl⟩ := hip a (List.mem_cons_self _ _)
      simp only [List.cons_append, List.head?_cons, ne_eq, Option.some.injEq]
      exact digitChar_ne_minus hd
  cases neg with
  | false =>
    unfold parseNumber
    simp only [Bool.false_eq_true, if_false, List.nil_append, hhead, decide_False]
    exact h
  | true =>
    unfold parseNumber
    simp only [if_true, List.singleton_append, List.head?_cons, decide_True, List.tail_cons]
    exact h

theorem delimited_facts {rest : List Char} (h : Delimited rest) :
    readExponent rest = some (0, rest) ∧
      (∀ c, rest.head? = some c → ∀ d, digitValue c = some d → 10 ≤ d) ∧
      rest.head? ≠ some '.' := by
  rcases h with h | ⟨r, h | h | h⟩ <;> subst h
  · exact ⟨rfl, by simp, by simp⟩
  · refine ⟨rfl, ?_, by simp⟩
    intro c hc d hd
    simp only [List.head?_cons, Option.some.injEq] at hc
    subst hc
    cases hd
  · refine ⟨rfl, ?_, by simp⟩
    intro c hc d hd
    simp only [List.head?_cons, Option.some.injEq] at hc
    subst hc
    cases hd
  · refine ⟨rfl, ?_, by simp⟩
    intro c hc d hd
    simp only [List.head?_cons, Option.some.injEq] at hc
    subst hc
    cases hd

/-- A numeral followed by a delimiter is read back as its number. -/
theorem parseNumber_intToString (n : Int) (rest : List Char) (h : Delimited rest) :
    parseNumber (intToString n ++ rest) = some (.num n, rest) := by
  obtain ⟨hx, hnd, hdot⟩ := delimited_facts h
  have key : ∀ (neg : Bool) (k : Nat),
      parseNumber ((if neg then ['-'] else []) ++ (Nat.toDigits 10 k ++ rest)) =
        some (.num (if neg then -(k : Int) else k), rest) := by
    intro neg k
    have hz : 1 < (Nat.toDigits 10 k).length → (Nat.toDigits 10 k).head? ≠ some '0' := by
      obtain ⟨d, cs, hd, hcs, h0⟩ := toDigits_head k
      intro h1 h2
      rw [hcs] at h1 h2
      simp only [List.head?_cons, Option.some.injEq] at h2
      have hd0 : d = 0 := by
        have := digitValue_digitChar hd
        rw [h2] at this
        have h3 : digitValue '0' = some 0 := rfl
        rw [h3] at this
        exact (Option.some.inj this).symm
      rw [h0 hd0] at h1
      simp at h1
    have := parseNumber_numeral neg (Nat.toDigits 10 k) [] rest rest 0 (toDigits_digit k)
      (by simp) (List.ne_nil_of_length_pos (toDigits_length_pos k)) hz hx hnd hdot
    simp only [if_true, List.nil_append] at this
    rw [this, digitsValue_toDigits]
    simp [numberValue, digitsValue]
  cases n with
  | ofNat k =>
    have := key false k
    simpa [intToString] using this
  | negSucc k =>
    have := key true (k + 1)
    simp only [if_true, List.singleton_append] at this
    rw [intToString, List.cons_append, this]
    rfl

theorem toDigits_leading (k : Nat) (ip : List Char) (n : Nat) (hip : ip = (Nat.toDigits 10 k).take n) :
    1 < ip.length → ip.head? ≠ some '0' := by
  obtain ⟨d, cs, hd, hcs, h0⟩ := toDigits_head k
  intro h1 h2
  subst hip
  rw [hcs] at h1 h2
  cases n with
  | zero => simp at h1
  | succ n =>
    simp only [List.take_succ_cons, List.head?_cons, Option.some.injEq] at h2
    have hd0 : d = 0 := by
      have := digitValue_digitChar hd
      rw [h2] at this
      have h3 : digitValue '0' = some 0 := rfl
      rw [h3] at this
      exact (Option.some.inj this).symm
    rw [h0 hd0] at h1
    simp at h1

theorem replicate_zero_digits (z : Nat) :
    ∀ c ∈ List.replicate z '0', ∃ d, d < 10 ∧ c = Nat.digitChar d := by
  intro c hc
  rw [List.mem_replicate] at hc
  exact ⟨0, by decide, hc.2⟩

/-- The representation of a number, followed by a delimiter, is read back as
a number. -/
theorem parseNumber_magnitudeChars (neg : Bool) (m e : Nat) (rest : List Char)
    (h : Delimited rest) :
    ∃ y, parseNumber ((if neg then ['-'] else []) ++ (magnitudeChars m e ++ rest)) =
      some (y, rest) := by
  obtain ⟨hx, hnd, hdot⟩ := delimited_facts h
  unfold magnitudeChars
  simp only
  generalize decimal m e = d
  have hs := toDigits_digit d.1
  have hpos := toDigits_length_pos d.1
  by_cases h0 : d.2 = 0
  · rw [if_pos h0]
    have := parseNumber_numeral neg (Nat.toDigits 10 d.1) [] rest rest 0 hs (by simp)
      (List.ne_nil_of_length_pos hpos) (toDigits_leading d.1 _ (Nat.toDigits 10 d.1).length (by simp))
      hx hnd hdot
    simp only [if_true, List.nil_append] at this
    exact ⟨_, this⟩
  · rw [if_neg h0]
    by_cases h1 : d.2 < (Nat.toDigits 10 d.1).length
    · rw [if_pos h1]
      have hfne : (Nat.toDigits 10 d.1).drop ((Nat.toDigits 10 d.1).length - d.2) ≠ [] := by
        intro hn
        have := congrArg List.length hn
        simp only [List.length_drop, List.length_nil] at this
        omega
      have hine : (Nat.toDigits 10 d.1).take ((Nat.toDigits 10 d.1).length - d.2) ≠ [] := by
        intro hn
        have := congrArg List.length hn
        simp only [List.length_take, List.length_nil] at this
        omega
      have := parseNumber_numeral neg ((Nat.toDigits 10 d.1).take ((Nat.toDigits 10 d.1).length - d.2))
        ((Nat.toDigits 10 d.1).drop ((Nat.toDigits 10 d.1).length - d.2)) rest rest 0
        (fun c hc => hs c (List.mem_of_mem_take hc)) (fun c hc => hs c (List.mem_of_mem_drop hc))
        hine (toDigits_leading d.1 _ _ rfl) hx hnd hdot
      rw [if_neg hfne] at this
      refine ⟨_, Eq.trans (congrArg parseNumber ?_) this⟩
      simp
    · rw [if_neg h1]
      by_cases h2 : d.2 - (Nat.toDigits 10 d.1).length < 6
      · rw [if_pos h2]
        have hfne : List.replicate (d.2 - (Nat.toDigits 10 d.1).length) '0' ++ Nat.toDigits 10 d.1 ≠ [] := by
          intro hn
          have := congrArg List.length hn
          simp only [List.length_append, List.length_replicate, List.length_nil] at this
          omega
        have := parseNumber_numeral neg ['0']
          (List.replicate (d.2 - (Nat.toDigits 10 d.1).length) '0' ++ Nat.toDigits 10 d.1) rest rest 0
          (fun c hc => ⟨0, by decide, by simpa using hc⟩)
          (fun c hc => by
            rcases List.mem_append.1 hc with hc | hc
            · exact replicate_zero_digits _ c hc
            · exact hs c hc)
          (by simp) (by simp) hx hnd hdot
        rw [if_neg hfne] at this
        refine ⟨_, Eq.trans (congrArg parseNumber ?_) this⟩
        simp
      · rw [if_neg h2]
        have hxe : readExponent ('e' :: '-' ::
            (Nat.toDigits 10 (d.2 - (Nat.toDigits 10 d.1).length + 1) ++ rest)) =
            some (-((d.2 - (Nat.toDigits 10 d.1).length + 1 : Nat) : Int), rest) := by
          unfold readExponent
          simp only [List.head?_cons, Option.some.injEq, true_or, if_true, List.tail_cons,
            decide_True]
          rw [readDigits_run _ rest 0 0 (toDigits_digit _) hnd, digitsValue_toDigits]
          have := toDigits_length_pos (d.2 - (Nat.toDigits 10 d.1).length + 1)
          have hne : 0 + (Nat.toDigits 10 (d.2 - (Nat.toDigits 10 d.1).length + 1)).length ≠ 0 := by
            omega
          simp only [Nat.zero_add, List.drop_left]
          rw [if_neg (by omega)]
        have hine : (Nat.toDigits 10 d.1).take 1 ≠ [] := by
          intro hn
          have := congrArg List.length hn
          simp only [List.length_take, List.length_nil] at this
          omega
        have := parseNumber_numeral neg ((Nat.toDigits 10 d.1).take 1)
          (if 1 < (Nat.toDigits 10 d.1).length then (Nat.toDigits 10 d.1).drop 1 else [])
          ('e' :: '-' :: (Nat.toDigits 10 (d.2 - (Nat.toDigits 10 d.1).length + 1) ++ rest)) rest _
          (fun c hc => hs c (List.mem_of_mem_take hc))
          (fun c hc => by
            split_ifs at hc
            · exact hs c (List.mem_of_mem_drop hc)
            · simp at hc)
          hine (toDigits_leading d.1 _ _ rfl) hxe
          (by
            intro c hc d' hd'
            simp only [List.head?_cons, Option.some.injEq] at hc
            subst hc
            have h14 : digitValue 'e' = some 14 := rfl
            rw [h14] at hd'
            have := Option.some.inj hd'
            omega)
          (by simp)
        refine ⟨_, Eq.trans (congrArg parseNumber ?_) this⟩
        by_cases h3 : 1 < (Nat.toDigits 10 d.1).length
        · have hdne : (Nat.toDigits 10 d.1).drop 1 ≠ [] := by
            intro hn
            have := congrArg List.length hn
            simp only [List.length_drop, List.length_nil] at this
            omega
          simp only [if_pos h3, if_neg hdne, List.append_assoc, List.cons_append]
        · simp only [if_neg h3, if_true, List.append_assoc, List.nil_append, List.cons_append]

theorem parseNumber_decToString (m : Int) (e : Nat) (rest : List Char) (h : Delimited rest) :
    ∃ y, parseNumber (decToString m e ++ rest) = some (y, rest) := by
  unfold decToString
  by_cases hm : m < 0
  · rw [if_pos hm]
    have := parseNumber_magnitudeChars true m.natAbs e rest h
    simpa using this
  · rw [if_neg hm]
    have := parseNumber_magnitudeChars false m.natAbs e rest h
    simpa using this

theorem digitChar_ascii {d : Nat} (hd : d < 10) :
    (Nat.digitChar d).toNat < 128 ∧ (Nat.digitChar d).toNat ≠ 0 := by
  rw [digitChar_toNat hd]
  omega

/-- Every character of the representation of a number is an ASCII character
other than U+0000. -/
theorem magnitudeChars_chars (m e : Nat) :
    ∀ c ∈ magnitudeChars m e, c.toNat < 128 ∧ c.toNat ≠ 0 := by
  have hdig : ∀ (k : Nat) (c : Char), c ∈ Nat.toDigits 10 k → c.toNat < 128 ∧ c.toNat ≠ 0 := by
    intro k c hc
    obtain ⟨d, hd, rfl⟩ := toDigits_digit k c hc
    exact digitChar_ascii hd
  intro c hc
  unfold magnitudeChars at hc
  simp only at hc
  split_ifs at hc
  · exact hdig _ c hc
  · simp only [List.mem_append, List.mem_cons] at hc
    rcases hc with hc | rfl | hc
    · exact hdig _ c (List.mem_of_mem_take hc)
    · decide
    · exact hdig _ c (List.mem_of_mem_drop hc)
  · simp only [List.mem_append, List.mem_cons, List.mem_replicate] at hc
    rcases hc with rfl | rfl | ⟨-, rfl⟩ | hc
    · decide
    · decide
    · decide
    · exact hdig _ c hc
  · simp only [List.mem_append, List.mem_cons] at hc
    rcases hc with hc | (rfl | hc) | rfl | rfl | hc
    · exact hdig _ c (List.mem_of_mem_take hc)
    · decide
    · exact hdig _ c (List.mem_of_mem_drop hc)
    · decide
    · decide
    · exact hdig _ c hc
  · simp only [List.mem_append, List.mem_cons, List.not_mem_nil, false_or] at hc
    rcases hc with hc | rfl | rfl | hc
    · exact hdig _ c (List.mem_of_mem_take hc)
    · decide
    · decide
    · exact hdig _ c hc

theorem decToString_chars (m : Int) (e : Nat) :
    ∀ c ∈ decToString m e, c.toNat < 128 ∧ c.toNat ≠ 0 := by
  intro c hc
  unfold decToString at hc
  split_ifs at hc
  · rcases List.mem_cons.1 hc with rfl | hc
    · decide
    · exact magnitudeChars_chars _ _ c hc
  · exact magnitudeChars_chars _ _ c hc

/-- The representation of a number starts with a digit. -/
theorem magnitudeChars_head (m e : Nat) :
    ∃ d r, d < 10 ∧ magnitudeChars m e = Nat.digitChar d :: r := by
  unfold magnitudeChars
  simp only
  generalize decimal m e = p
  obtain ⟨d, cs, hd, hcs, -⟩ := toDigits_head p.1
  have hlen : (Nat.toDigits 10 p.1).length = cs.length + 1 := by rw [hcs]; rfl
  split_ifs with h0 h1 h2 h3
  · exact ⟨d, cs, hd, hcs⟩
  · obtain ⟨k, hk⟩ : ∃ k, (Nat.toDigits 10 p.1).length - p.2 = k + 1 := ⟨_, (Nat.succ_pred_eq_of_pos (by omega)).symm⟩
    rw [hk, hcs]
    exact ⟨d, _, hd, rfl⟩
  · exact ⟨0, _, by decide, rfl⟩
  · rw [hcs]
    exact ⟨d, _, hd, rfl⟩
  · rw [hcs]
    exact ⟨d, _, hd, rfl⟩

theorem skipSpace_cons {c : Char} (h : isJsonSpace c = false) (cs : List Char) :
    skipSpace (c :: cs) = c :: cs := by
  rw [skipSpace]
  simp [h]

theorem parseValue_null (fuel : Nat) (rest : List Char) :
    parseValue (fuel + 1) ("null".data ++ rest) = some (.null, rest) := by
  rw [parseValue]
  simp [skipSpace, isJsonSpace]

theorem parseValue_true (fuel : Nat) (rest : List Char) :
    parseValue (fuel + 1) ("true".data ++ rest) = some (.bool true, rest) := by
  rw [parseValue]
  simp [skipSpace, isJsonSpace]

theorem parseValue_false (fuel : Nat) (rest : List Char) :
    parseValue (fuel + 1) ("false".data ++ rest) = some (.bool false, rest) := by
  rw [parseValue]
  simp [skipSpace, isJsonSpace]

theorem parseValue_digit (fuel : Nat) (d : Nat) (hd : d < 10) (cs : List Char) :
    parseValue (fuel + 1) (Nat.digitChar d :: cs) = parseNumber (Nat.digitChar d :: cs) := by
  rw [parseValue]
  interval_cases d <;> simp [skipSpace, isJsonSpace, Nat.digitChar]

theorem parseValue_minus (fuel : Nat) (cs : List Char) :
    parseValue (fuel + 1) ('-' :: cs) = parseNumber ('-' :: cs) := by
  rw [parseValue]
  simp [skipSpace, isJsonSpace]

theorem parseValue_num (fuel : Nat) (n : Int) (rest : List Char) (h : Delimited rest) :
    parseValue (fuel + 1) (intToString n ++ rest) = some (.num n, rest) := by
  rw [← parseNumber_intToString n rest h]
  cases n with
  | ofNat k =>
    obtain ⟨d, cs, hd, hcs, -⟩ := toDigits_head k
    simp only [intToString, hcs, List.cons_append]
    exact parseValue_digit fuel d hd _
  | negSucc k => exact parseValue_minus fuel _

theorem parseValue_dec (fuel : Nat) (m : Int) (e : Nat) (rest : List Char) (h : Delimited rest) :
    ∃ y, parseValue (fuel + 1) (decToString m e ++ rest) = some (y, rest) := by
  obtain ⟨y, hy⟩ := parseNumber_decToString m e rest h
  refine ⟨y, ?_⟩
  rw [← hy]
  unfold decToString
  obtain ⟨d, r, hd, hr⟩ := magnitudeChars_head m.natAbs e
  split_ifs
  · exact parseValue_minus fuel _
  · rw [hr]
    exact parseValue_digit fuel d hd _

theorem parseValue_str (fuel : Nat) (s : String) (rest : List Char) :
    parseValue (fuel + 1) (quote s ++ rest) = some (.str s, rest) := by
  unfold quote
  rw [parseValue]
  simp [skipSpace, isJsonSpace, parseString_escape]

/-- Every serialisation starts with an ASCII character that is neither white
space nor a closing bracket. -/
theorem chars_head (x : JSON) :
    ∃ c r, x.chars = c :: r ∧ c.toNat < 128 ∧ isJsonSpace c = false ∧ c ≠ ']' ∧ c ≠ '}' := by
  cases x with
  | null => exact ⟨'n', _, rfl, by decide, by decide, by decide, by decide⟩
  | bool b =>
    cases b
    · exact ⟨'f', _, rfl, by decide, by decide, by decide, by decide⟩
    · exact ⟨'t', _, rfl, by decide, by decide, by decide, by decide⟩
  | num n =>
    have hdig : ∀ d, d < 10 → (Nat.digitChar d).toNat < 128 ∧
        isJsonSpace (Nat.digitChar d) = false ∧ Nat.digitChar d ≠ ']' ∧ Nat.digitChar d ≠ '}' := by
      intro d hd
      interval_cases d <;> decide
    cases n with
    | ofNat k =>
      obtain ⟨d, cs, hd, hcs, -⟩ := toDigits_head k
      exact ⟨_, cs, by simp [JSON.chars, intToString, hcs], hdig d hd⟩
    | negSucc k =>
      exact ⟨'-', Nat.toDigits 10 (k + 1), by simp [JSON.chars, intToString], by decide,
        by decide, by decide, by decide⟩
  | dec m e =>
    have hdig : ∀ d, d < 10 → (Nat.digitChar d).toNat < 128 ∧
        isJsonSpace (Nat.digitChar d) = false ∧ Nat.digitChar d ≠ ']' ∧ Nat.digitChar d ≠ '}' := by
      intro d hd
      interval_cases d <;> decide
    obtain ⟨d, r, hd, hr⟩ := magnitudeChars_head m.natAbs e
    by_cases hm : m < 0
    · exact ⟨'-', magnitudeChars m.natAbs e, by simp [JSON.chars, decToString, hm], by decide,
        by decide, by decide, by decide⟩
    · exact ⟨_, r, by simp [JSON.chars, decToString, hm, hr], hdig d hd⟩
  | str s =>
    exact ⟨'"', s.data.flatMap escapeChar ++ ['"'], by simp [JSON.chars, quote], by decide,
      by decide, by decide, by decide⟩
  | arr xs =>
    exact ⟨'[', JSON.elemChars xs ++ [']'], by simp [JSON.chars], by decide, by decide,
      by decide, by decide⟩
  | obj kvs =>
    exact ⟨'{', JSON.memberChars kvs ++ ['}'], by simp [JSON.chars], by decide, by decide,
      by decide, by decide⟩

theorem latin1_chars_head (x : JSON) :
    ∃ c r, latin1 x.chars = c :: r ∧ isJsonSpace c = false ∧ c ≠ ']' ∧ c ≠ '}' := by
  obtain ⟨c, r, h, h1, h2, h3, h4⟩ := chars_head x
  exact ⟨c, latin1 r, by rw [h, latin1_cons_ascii h1], h2, h3, h4⟩

theorem chars_length_pos (x : JSON) : 0 < x.chars.length := by
  obtain ⟨c, r, h, -⟩ := chars_head x
  rw [h]
  simp

theorem latin1_elemChars (x : JSON) (xs : List JSON) :
    latin1 (JSON.elemChars (x :: xs)) = latin1 x.chars ++ tailElemChars xs := by
  induction xs generalizing x with
  | nil => simp [JSON.elemChars, tailElemChars]
  | cons y xs ih =>
    rw [JSON.elemChars, latin1_append, latin1_cons_ascii (by decide), ih y]
    simp [tailElemChars]

theorem latin1_memberChars (kv : String × JSON) (kvs : List (String × JSON)) :
    latin1 (JSON.memberChars (kv :: kvs)) =
      latin1 (quote kv.1) ++ ':' :: (latin1 kv.2.chars ++ tailMemberChars kvs) := by
  induction kvs generalizing kv with
  | nil =>
    obtain ⟨k, v⟩ := kv
    simp [JSON.memberChars, tailMemberChars, latin1_append, latin1_cons_ascii]
  | cons kv' kvs ih =>
    obtain ⟨k, v⟩ := kv
    rw [JSON.memberChars, latin1_append, latin1_cons_ascii (by decide), latin1_append,
      latin1_cons_ascii (by decide), ih kv']
    simp [tailMemberChars]

theorem elemChars_length (xs : List JSON) :
    xs.length ≤ (JSON.elemChars xs).length ∧
      ∀ x ∈ xs, x.chars.length ≤ (JSON.elemChars xs).length := by
  induction xs with
  | nil => simp [JSON.elemChars]
  | cons x xs ih =>
    cases xs with
    | nil =>
      have := chars_length_pos x
      simp only [JSON.elemChars, List.length_singleton, List.mem_singleton, forall_eq]
      omega
    | cons y xs =>
      rw [JSON.elemChars]
      simp only [List.length_append, List.length_cons] at ih ⊢
      refine ⟨by omega, fun z hz => ?_⟩
      rcases List.mem_cons.1 hz with rfl | hz
      · omega
      · have := ih.2 z hz
        omega

theorem memberChars_length (kvs : List (String × JSON)) :
    kvs.length ≤ (JSON.memberChars kvs).length ∧
      ∀ kv ∈ kvs, kv.2.chars.length ≤ (JSON.memberChars kvs).length := by
  induction kvs with
  | nil => simp [JSON.memberChars]
  | cons kv kvs ih =>
    obtain ⟨k, v⟩ := kv
    cases kvs with
    | nil =>
      have e : JSON.memberChars [(k, v)] = quote k ++ ':' :: v.chars := by
        rw [JSON.memberChars]
      rw [e]
      clear ih
      simp only [List.length_singleton, List.mem_singleton, forall_eq, List.length_append,
        List.length_cons, List.length_nil]
      omega
    | cons kv' kvs =>
      have e : JSON.memberChars ((k, v) :: kv' :: kvs) =
          quote k ++ ':' :: (v.chars ++ ',' :: JSON.memberChars (kv' :: kvs)) := by
        rw [JSON.memberChars]
      rw [e]
      simp only [List.length_append, List.length_cons] at ih ⊢
      refine ⟨by omega, fun z hz => ?_⟩
      rcases List.mem_cons.1 hz with rfl | hz
      · show v.chars.length ≤ _
        omega
      · have := ih.2 z hz
        omega

theorem delimited_tailElemChars (xs : List JSON) (rest : List Char) :
    Delimited (tailElemChars xs ++ ']' :: rest) := by
  cases xs with
  | nil => exact Or.inr ⟨rest, Or.inr (Or.inl rfl)⟩
  | cons x xs => exact Or.inr ⟨_, Or.inl (by simp [tailElemChars]; rfl)⟩

theorem delimited_tailMemberChars (kvs : List (String × JSON)) (rest : List Char) :
    Delimited (tailMemberChars kvs ++ '}' :: rest) := by
  cases kvs with
  | nil => exact Or.inr ⟨rest, Or.inr (Or.inr rfl)⟩
  | cons x xs => exact Or.inr ⟨_, Or.inl (by simp [tailMemberChars]; rfl)⟩

/-- The elements of an array after the first are read back up to the closing
bracket, when `value` reads every one of them back. -/
theorem parseElements_tail (value : List Char → Option (JSON × List Char))
    (rest : List Char) (xs : List JSON) :
    ∀ (acc : List JSON) (fuel : Nat), xs.length < fuel →
      (∀ x ∈ xs, ∀ r, Delimited r → ∃ y, value (latin1 x.chars ++ r) = some (y, r)) →
      ∃ ys, parseElements value fuel (tailElemChars xs ++ ']' :: rest) acc =
        some (.arr ys, rest) := by
  induction xs with
  | nil =>
    intro acc fuel hf _
    cases fuel with
    | zero => omega
    | succ fuel =>
      refine ⟨acc, ?_⟩
      simp [tailElemChars, parseElements, skipSpace, isJsonSpace]
  | cons x xs ih =>
    intro acc fuel hf hv
    cases fuel with
    | zero => omega
    | succ fuel =>
      obtain ⟨y, hy⟩ := hv x (List.mem_cons_self _ _) _ (delimited_tailElemChars xs rest)
      obtain ⟨ys, hys⟩ := ih (acc ++ [y]) fuel (by simpa using hf)
        (fun z hz => hv z (List.mem_cons_of_mem _ hz))
      refine ⟨ys, ?_⟩
      have e : tailElemChars (x :: xs) ++ ']' :: rest =
          ',' :: (latin1 x.chars ++ (tailElemChars xs ++ ']' :: rest)) := by
        simp [tailElemChars]
      rw [e, parseElements, skipSpace_cons (by decide)]
      simp [hy, hys]

/-- Induction over JSON values: a property of all elements carries over to
the array, a property of all member values to the object. -/
theorem JSON.induction {P : JSON → Prop} (hnull : P .null) (hbool : ∀ b, P (.bool b))
    (hnum : ∀ n, P (.num n)) (hdec : ∀ m e, P (.dec m e)) (hstr : ∀ s, P (.str s))
    (harr : ∀ xs : List JSON, (∀ x ∈ xs, P x) → P (.arr xs))
    (hobj : ∀ kvs : List (String × JSON), (∀ kv ∈ kvs, P kv.2) → P (.obj kvs)) : ∀ x, P x := by
  intro x
  refine JSON.rec (motive_1 := P) (motive_2 := fun xs => ∀ x ∈ xs, P x)
    (motive_3 := fun kvs => ∀ kv ∈ kvs, P kv.2) (motive_4 := fun kv => P kv.2)
    hnull hbool hnum hdec hstr (fun xs h => harr xs h) (fun kvs h => hobj kvs h)
    (by intro x hx; simp at hx) ?_ (by intro x hx; simp at hx) ?_ ?_ x
  · intro head tail h1 h2 x hx
    rcases List.mem_cons.1 hx with rfl | hx
    · exact h1
    · exact h2 x hx
  · intro head tail h1 h2 x hx
    rcases List.mem_cons.1 hx with rfl | hx
    · exact h1
    · exact h2 x hx
  · intro fst snd h
    exact h

/-- The members of an object after the first are read back up to the closing
brace, when `value` reads every value back. -/
theorem parseMembers_tail (value : List Char → Option (JSON × List Char))
    (rest : List Char) (kvs : List (String × JSON)) :
    ∀ (acc : List (String × JSON)) (fuel : Nat), kvs.length < fuel →
      (∀ kv ∈ kvs, ∀ r, Delimited r → ∃ y, value (latin1 kv.2.chars ++ r) = some (y, r)) →
      ∃ ys, parseMembers value fuel (tailMemberChars kvs ++ '}' :: rest) acc =
        some (.obj ys, rest) := by
  induction kvs with
  | nil =>
    intro acc fuel hf _
    cases fuel with
    | zero => omega
    | succ fuel =>
      refine ⟨acc, ?_⟩
      simp [tailMemberChars, parseMembers, skipSpace, isJsonSpace]
  | cons kv kvs ih =>
    intro acc fuel hf hv
    cases fuel with
    | zero => omega
    | succ fuel =>
      obtain ⟨y, hy⟩ := hv kv (List.mem_cons_self _ _) _ (delimited_tailMemberChars kvs rest)
      obtain ⟨ys, hys⟩ := ih (setMember ⟨latin1 kv.1.data⟩ y acc) fuel (by simpa using hf)
        (fun z hz => hv z (List.mem_cons_of_mem _ hz))
      refine ⟨ys, ?_⟩
      have e : tailMemberChars (kv :: kvs) ++ '}' :: rest =
          ',' :: '"' :: ((latin1 kv.1.data).flatMap escapeChar ++ '"' ::
            (':' :: (latin1 kv.2.chars ++ (tailMemberChars kvs ++ '}' :: rest)))) := by
        rw [tailMemberChars, List.flatMap_cons, latin1_quote]
        simp [quote, tailMemberChars]
      rw [e, parseMembers, skipSpace_cons (by decide)]
      simp only [show (',' : Char) ≠ '}' by decide, if_false, if_true,
        skipSpace_cons (show isJsonSpace '"' = false by decide), parseString_escape,
        skipSpace_cons (show isJsonSpace ':' = false by decide), hy, hys]

theorem parseValue_arr_nil (fuel : Nat) (rest : List Char) :
    parseValue (fuel + 1) ('[' :: ']' :: rest) = some (.arr [], rest) := by
  rw [parseValue]
  simp [skipSpace, isJsonSpace]

theorem parseValue_arr_cons (fuel : Nat) (c : Char) (r : List Char)
    (hc1 : isJsonSpace c = false) (hc2 : c ≠ ']') :
    parseValue (fuel + 1) ('[' :: c :: r) =
      match parseValue fuel (c :: r) with
      | some (v, rest1) => parseElements (parseValue fuel) fuel rest1 [v]
      | none => none := by
  rw [parseValue, skipSpace_cons (by decide)]
  simp only [show ('[' : Char) ≠ '"' by decide, if_false, if_true, skipSpace_cons hc1]
  split
  · rename_i heq
    exact absurd (List.cons.inj heq).1 hc2
  · rfl

theorem parseValue_obj_nil (fuel : Nat) (rest : List Char) :
    parseValue (fuel + 1) ('{' :: '}' :: rest) = some (.obj [], rest) := by
  rw [parseValue]
  simp [skipSpace, isJsonSpace]

theorem parseValue_obj_cons (fuel : Nat) (k : List Char) (c : Char) (r : List Char) :
    parseValue (fuel + 1)
        ('{' :: '"' :: (k.flatMap escapeChar ++ '"' :: ':' :: (c :: r))) =
      match parseValue fuel (c :: r) with
      | some (v, rest4) => parseMembers (parseValue fuel) fuel rest4 [(⟨k⟩, v)]
      | none => none := by
  rw [parseValue, skipSpace_cons (by decide)]
  simp only [show ('{' : Char) ≠ '"' by decide, show ('{' : Char) ≠ '[' by decide, if_false,
    if_true, skipSpace_cons (show isJsonSpace '"' = false by decide), parseString_escape,
    skipSpace_cons (show isJsonSpace ':' = false by decide)]

/-- Every serialisation, read byte by byte, is read back as a value by
`parseValue` with fuel for its characters. -/
theorem parseValue_latin1 : ∀ x : JSON, ∀ (fuel : Nat) (rest : List Char),
    x.chars.length ≤ fuel → Delimited rest →
    ∃ y, parseValue fuel (latin1 x.chars ++ rest) = some (y, rest) := by
  intro x
  induction x using JSON.induction with
  | hnull =>
    intro fuel rest hf _
    cases fuel with
    | zero => simp [JSON.chars] at hf
    | succ fuel => exact ⟨_, parseValue_null fuel rest⟩
  | hbool b =>
    intro fuel rest hf _
    cases fuel with
    | zero => cases b <;> simp [JSON.chars] at hf
    | succ fuel =>
      cases b
      · exact ⟨_, parseValue_false fuel rest⟩
      · exact ⟨_, parseValue_true fuel rest⟩
  | hnum n =>
    intro fuel rest hf hr
    cases fuel with
    | zero => have := chars_length_pos (.num n); omega
    | succ fuel =>
      refine ⟨.num n, ?_⟩
      rw [show (JSON.num n).chars = intToString n by simp [JSON.chars],
        latin1_of_ascii _ (fun c hc => (intToString_chars n c hc).1)]
      exact parseValue_num fuel n rest hr
  | hdec m e =>
    intro fuel rest hf hr
    cases fuel with
    | zero => have := chars_length_pos (.dec m e); omega
    | succ fuel =>
      rw [show (JSON.dec m e).chars = decToString m e by simp [JSON.chars],
        latin1_of_ascii _ (fun c hc => (decToString_chars m e c hc).1)]
      exact parseValue_dec fuel m e rest hr
  | hstr s =>
    intro fuel rest hf _
    cases fuel with
    | zero => have := chars_length_pos (.str s); omega
    | succ fuel =>
      refine ⟨.str ⟨latin1 s.data⟩, ?_⟩
      rw [show (JSON.str s).chars = quote s by simp [JSON.chars], latin1_quote]
      exact parseValue_str fuel _ rest
  | harr xs ih =>
    intro fuel rest hf _
    cases fuel with
    | zero => have := chars_length_pos (.arr xs); omega
    | succ fuel =>
      have hc : (JSON.arr xs).chars = '[' :: (JSON.elemChars xs ++ [']']) := by simp [JSON.chars]
      rw [hc] at hf
      simp only [List.length_cons, List.length_append, List.length_singleton] at hf
      rw [hc, latin1_cons_ascii (by decide), latin1_append, latin1_ascii (by decide)]
      cases xs with
      | nil =>
        refine ⟨.arr [], ?_⟩
        simp only [JSON.elemChars, latin1_nil, List.nil_append, List.cons_append]
        exact parseValue_arr_nil fuel rest
      | cons x xs =>
        have hl := elemChars_length (x :: xs)
        simp only [List.length_cons] at hl
        obtain ⟨y, hy⟩ := ih x (List.mem_cons_self _ _) fuel (tailElemChars xs ++ ']' :: rest)
          (by have := hl.2 x (List.mem_cons_self _ _); omega) (delimited_tailElemChars xs rest)
        obtain ⟨ys, hys⟩ := parseElements_tail (parseValue fuel) rest xs [y] fuel (by omega)
          (fun z hz r hr => ih z (List.mem_cons_of_mem _ hz) fuel r
            (by have := hl.2 z (List.mem_cons_of_mem _ hz); omega) hr)
        obtain ⟨c, r, hcr, hc1, hc2, -⟩ := latin1_chars_head x
        refine ⟨.arr ys, ?_⟩
        rw [latin1_elemChars]
        simp only [List.cons_append, List.append_assoc, List.nil_append, List.singleton_append]
        rw [hcr] at hy ⊢
        simp only [List.cons_append] at hy ⊢
        rw [parseValue_arr_cons fuel c _ hc1 hc2, hy]
        exact hys
  | hobj kvs ih =>
    intro fuel rest hf _
    cases fuel with
    | zero => have := chars_length_pos (.obj kvs); omega
    | succ fuel =>
      have hc : (JSON.obj kvs).chars = '{' :: (JSON.memberChars kvs ++ ['}']) := by
        simp [JSON.chars]
      rw [hc] at hf
      simp only [List.length_cons, List.length_append, List.length_singleton] at hf
      rw [hc, latin1_cons_ascii (by decide), latin1_append, latin1_ascii (by decide)]
      cases kvs with
      | nil =>
        refine ⟨.obj [], ?_⟩
        simp only [JSON.memberChars, latin1_nil, List.nil_append, List.cons_append]
        exact parseValue_obj_nil fuel rest
      | cons kv kvs =>
        have hl := memberChars_length (kv :: kvs)
        simp only [List.length_cons] at hl
        obtain ⟨y, hy⟩ := ih kv (List.mem_cons_self _ _) fuel (tailMemberChars kvs ++ '}' :: rest)
          (by have := hl.2 kv (List.mem_cons_self _ _); omega)
          (delimited_tailMemberChars kvs rest)
        obtain ⟨ys, hys⟩ := parseMembers_tail (parseValue fuel) rest kvs
          [(⟨latin1 kv.1.data⟩, y)] fuel (by omega)
          (fun z hz r hr => ih z (List.mem_cons_of_mem _ hz) fuel r
            (by have := hl.2 z (List.mem_cons_of_mem _ hz); omega) hr)
        obtain ⟨c, r, hcr, -⟩ := latin1_chars_head kv.2
        refine ⟨.obj ys, ?_⟩
        rw [latin1_memberChars, latin1_quote]
        unfold quote
        simp only [List.cons_append, List.append_assoc, List.nil_append, List.singleton_append]
        rw [hcr] at hy ⊢
        simp only [List.cons_append] at hy ⊢
        rw [parseValue_obj_cons fuel _ c _, hy]
        exact hys

theorem elemChars_mem (xs : List JSON) (c : Char) (h : c ∈ JSON.elemChars xs) :
    c = ',' ∨ ∃ x ∈ xs, c ∈ x.chars := by
  induction xs with
  | nil => simp [JSON.elemChars] at h
  | cons x xs ih =>
    cases xs with
    | nil => exact Or.inr ⟨x, by simp, by simpa [JSON.elemChars] using h⟩
    | cons y xs =>
      rw [JSON.elemChars] at h
      simp only [List.mem_append, List.mem_cons] at h
      rcases h with h | h | h
      · exact Or.inr ⟨x, by simp, h⟩
      · exact Or.inl h
      · rcases ih h with h | ⟨z, hz, hc⟩
        · exact Or.inl h
        · exact Or.inr ⟨z, List.mem_cons_of_mem _ hz, hc⟩

theorem memberChars_mem (kvs : List (String × JSON)) (c : Char) (h : c ∈ JSON.memberChars kvs) :
    c = ',' ∨ c = ':' ∨ ∃ kv ∈ kvs, c ∈ quote kv.1 ∨ c ∈ kv.2.chars := by
  induction kvs with
  | nil => simp [JSON.memberChars] at h
  | cons kv kvs ih =>
    obtain ⟨k, v⟩ := kv
    cases kvs with
    | nil =>
      rw [JSON.memberChars] at h
      simp only [List.mem_append, List.mem_cons] at h
      rcases h with h | h | h
      · exact Or.inr (Or.inr ⟨(k, v), by simp, Or.inl h⟩)
      · exact Or.inr (Or.inl h)
      · exact Or.inr (Or.inr ⟨(k, v), by simp, Or.inr h⟩)
    | cons kv' kvs =>
      rw [JSON.memberChars] at h
      simp only [List.mem_append, List.mem_cons] at h
      rcases h with h | h | h | h | h
      · exact Or.inr (Or.inr ⟨(k, v), by simp, Or.inl h⟩)
      · exact Or.inr (Or.inl h)
      · exact Or.inr (Or.inr ⟨(k, v), by simp, Or.inr h⟩)
      · exact Or.inl h
      · rcases ih h with h | h | ⟨z, hz, hc⟩
        · exact Or.inl h
        · exact Or.inr (Or.inl h)
        · exact Or.inr (Or.inr ⟨z, List.mem_cons_of_mem _ hz, hc⟩)

/-- No serialisation contains the character U+0000. -/
theorem chars_no_nul : ∀ x : JSON, ∀ c ∈ x.chars, c.toNat ≠ 0 := by
  intro x
  induction x using JSON.induction with
  | hnull => intro c hc; simp [JSON.chars] at hc; rcases hc with rfl | rfl | rfl <;> decide
  | hbool b =>
    intro c hc
    cases b <;> simp [JSON.chars] at hc
    · rcases hc with rfl | rfl | rfl | rfl | rfl <;> decide
    · rcases hc with rfl | rfl | rfl | rfl <;> decide
  | hnum n =>
    intro c hc
    exact (intToString_chars n c (by simpa [JSON.chars] using hc)).2
  | hdec m e =>
    intro c hc
    exact (decToString_chars m e c (by simpa [JSON.chars] using hc)).2
  | hstr s =>
    intro c hc
    exact quote_no_nul s c (by simpa [JSON.chars] using hc)
  | harr xs ih =>
    intro c hc
    have hc : c = '[' ∨ c ∈ JSON.elemChars xs ∨ c = ']' := by simpa [JSON.chars] using hc
    rcases hc with rfl | hc | rfl
    · decide
    · rcases elemChars_mem xs c hc with rfl | ⟨x, hx, hcx⟩
      · decide
      · exact ih x hx c hcx
    · decide
  | hobj kvs ih =>
    intro c hc
    have hc : c = '{' ∨ c ∈ JSON.memberChars kvs ∨ c = '}' := by simpa [JSON.chars] using hc
    rcases hc with rfl | hc | rfl
    · decide
    · rcases memberChars_mem kvs c hc with rfl | rfl | ⟨kv, hkv, hq | hv⟩
      · decide
      · decide
      · exact quote_no_nul kv.1 c hq
      · exact ih kv hkv c hv
    · decide

/-- The body the constructor writes for a payload is decoded by
`JSON.parse(hex2ascii(body))` to some value. -/
theorem parse_encoded (x : JSON) : ∃ y, JSON.parse (hex2ascii (bufferHex x.stringify)) = some y := by
  have he : hex2ascii (bufferHex x.stringify) = ⟨latin1 x.chars⟩ :=
    hex2ascii_bufferHex x.stringify (chars_no_nul x)
  rw [he]
  have hlen := length_le_latin1 x.chars
  obtain ⟨y, hy⟩ := parseValue_latin1 x ((latin1 x.chars).length + 1) [] (by
    show x.chars.length ≤ _
    omega) (Or.inl rfl)
  rw [List.append_nil] at hy
  refine ⟨y, ?_⟩
  unfold JSON.parse
  show (match parseValue ((latin1 x.chars).length + 1) (latin1 x.chars) with
    | some (v, rest) => if skipSpace rest = [] then some v else none
    | none => none) = some y
  rw [hy]
  rfl

/-- The promise of `getBData()` is resolved for a block above height 0 with
a body written by the constructor. -/
theorem getBData_encoded (b : Block) (hb : Encoded b) (hh : b.height ≠ 0) :
    ∃ data, b.getBData = .resolved data := by
  obtain ⟨x, hx⟩ := hb
  obtain ⟨y, hy⟩ := parse_encoded x
  refine ⟨y, ?_⟩
  unfold Block.getBData
  simp only [hh, if_false, hx, hy]
  rfl

theorem addBlock_encoded (sha : String → String) (bc : Blockchain) (block : Block) (now : Nat)
    (hbc : ∀ b ∈ bc.chain, Encoded b) (hb : Encoded block) :
    ∀ b ∈ (bc._addBlock sha block now).1.chain, Encoded b := by
  intro b hmem
  rw [addBlock_chain] at hmem
  rcases List.mem_append.1 hmem with h | h
  · exact hbc b h
  · rw [List.mem_singleton] at h
    obtain ⟨x, hx⟩ := hb
    exact ⟨x, by rw [h, addBlock_body, hx]⟩

theorem foldl_addBlock_encoded (sha : String → String) (steps : List (JSON × Nat)) :
    ∀ bc : Blockchain, (∀ b ∈ bc.chain, Encoded b) →
      ∀ b ∈ (steps.foldl (fun bc step => (bc._addBlock sha (Block.new step.1) step.2).1)
        bc).chain, Encoded b := by
  induction steps with
  | nil => intro bc h; exact h
  | cons step steps ih =>
    intro bc h
    exact ih _ (addBlock_encoded sha bc (Block.new step.1) step.2 h ⟨step.1, rfl⟩)

theorem build_encoded (sha : String → String) (genesisTime : Nat) (steps : List (JSON × Nat)) :
    ∀ b ∈ (Blockchain.build sha genesisTime steps).chain, Encoded b := by
  apply foldl_addBlock_encoded
  unfold Blockchain.new Blockchain.initializeChain
  rw [if_pos rfl]
  exact addBlock_encoded sha _ _ genesisTime (fun b hb => by simp at hb) ⟨_, rfl⟩

/-- The loop of `getStarsByWalletAddress` over blocks whose heights count up
from the loop index, all decodable above height 0: it resolves, with the
matching payloads of the blocks above height 0 added in order. -/
theorem asyncForEach_stars (address : String) (l : List Block) :
    ∀ (index : Nat) (stars : List JSON),
      (∀ (j : Nat) (b : Block), l[j]? = some b → b.height = index + j) →
      (∀ b ∈ l, b.height ≠ 0 → ∃ data, b.getBData = .resolved data) →
      asyncForEach (starsCallback address) l index stars =
        .resolved (stars ++ (l.filter fun b => b.height ≠ 0).filterMap (starOf address)) := by
  induction l with
  | nil => intro index stars _ _; simp [asyncForEach]
  | cons b l ih =>
    intro index stars hidx hdec
    have hb : b.height = index := by simpa using hidx 0 b (by simp)
    have ih' := fun stars' => ih (index + 1) stars'
      (fun j x hx => by
        have := hidx (j + 1) x (by simpa using hx)
        omega)
      (fun x hx => hdec x (List.mem_cons_of_mem _ hx))
    by_cases h0 : index = 0
    · have hcb : starsCallback address stars b index = .resolved stars := by
        unfold starsCallback
        simp [h0]
      have hf : (b :: l).filter (fun b => decide (b.height ≠ 0)) =
          l.filter (fun b => decide (b.height ≠ 0)) := by
        rw [List.filter_cons_of_neg]
        simp [hb, h0]
      rw [asyncForEach, hcb, hf]
      exact ih' stars
    · obtain ⟨data, hdata⟩ := hdec b (List.mem_cons_self _ _) (by omega)
      have hcb : starsCallback address stars b index =
          .resolved (if data.truthy ∧ data.hasAddress address then stars ++ [data] else stars) := by
        unfold starsCallback
        rw [if_pos h0, hdata]
      have hf : (b :: l).filter (fun b => decide (b.height ≠ 0)) =
          b :: l.filter (fun b => decide (b.height ≠ 0)) := by
        rw [List.filter_cons_of_pos]
        simp [hb, h0]
      have hs : starOf address b =
          if data.truthy ∧ data.hasAddress address then some data else none := by
        unfold starOf
        rw [hdata]
      rw [asyncForEach, hcb, hf, List.filterMap_cons, hs]
      simp only
      rw [ih']
      by_cases hc : data.truthy = true ∧ data.hasAddress address = true
      · simp [hc]
      · simp [hc]

theorem foldl_addBlock_indexed (sha : String → String) (steps : List (JSON × Nat)) :
    ∀ bc : Blockchain, Indexed bc.chain →
      Indexed (steps.foldl (fun bc step => (bc._addBlock sha (Block.new step.1) step.2).1)
        bc).chain := by
  induction steps with
  | nil => intro bc h; exact h
  | cons step steps ih =>
    intro bc h
    exact ih _ (addBlock_indexed sha bc (Block.new step.1) step.2 h).2

theorem build_indexed (sha : String → String) (genesisTime : Nat) (steps : List (JSON × Nat)) :
    Indexed (Blockchain.build sha genesisTime steps).chain := by
  apply foldl_addBlock_indexed
  unfold Blockchain.new Blockchain.initializeChain
  rw [if_pos rfl]
  exact (addBlock_indexed sha _ _ genesisTime (fun i b hb => by simp at hb)).2

/-! ### Block objects -/

theorem modify_append_length {α : Type} (f : α → α) (l : List α) (a : α) :
    (l ++ [a]).modify f l.length = l ++ [f a] := by
  induction l with
  | nil => rfl
  | cons x l ih => simp [List.modify_succ_cons, ih]

theorem filterMap_getElem_append {α : Type} (l : List α) (a : α) (chain : List Nat)
    (h : ∀ r ∈ chain, r < l.length) :
    (chain.filterMap fun r => (l ++ [a])[r]?) = chain.filterMap fun r => l[r]? := by
  apply List.filterMap_congr
  intro r hr
  exact List.getElem?_append_left (h r hr)

theorem filterMap_getElem_length {α : Type} (l : List α) (chain : List Nat)
    (h : ∀ r ∈ chain, r < l.length) :
    (chain.filterMap fun r => l[r]?).length = chain.length := by
  induction chain with
  | nil => rfl
  | cons r chain ih =>
    have hr := h r (List.mem_cons_self _ _)
    have ih := ih (fun x hx => h x (List.mem_cons_of_mem _ hx))
    rw [List.filterMap_cons, List.getElem?_eq_getElem hr]
    simp [ih]

theorem filterMap_getElem_range {α : Type} (l : List α) (n : Nat) :
    ((List.range n).filterMap fun r => l[r]?) = l.take n := by
  induction n with
  | zero => rfl
  | succ n ih =>
    rw [List.range_succ, List.filterMap_append, ih, List.take_succ]
    congr 1

/-- A ledger held as objects is seen as that ledger. -/
theorem Store.view_ofLedger (bc : Blockchain) : (Store.ofLedger bc).view = bc := by
  unfold Store.view Store.ofLedger
  simp only [filterMap_getElem_range, List.take_length]

/-- Method `_addBlock` called with a new object does to the ledger a reader
sees what `Blockchain._addBlock` does to it. -/
theorem Store.view_addBlock_create (sha : String → String) (s : Store)
    (hs : ∀ r ∈ s.chain, r < s.objects.length) (block : Block) (now : Nat) :
    ((s.create block).1._addBlock sha (s.create block).2 now).view =
      (s.view._addBlock sha block now).1 := by
  obtain ⟨objects, chain, height⟩ := s
  simp only at hs
  have hlen := filterMap_getElem_length objects chain hs
  rcases List.eq_nil_or_concat chain with rfl | ⟨init, last, rfl⟩
  · simp [Store.create, Store._addBlock, Store.assign, Store.view, Blockchain._addBlock,
      modify_append_length]
  · rw [List.concat_eq_append] at hs hlen ⊢
    have hlast : last < objects.length := hs last (by simp)
    have hinit : ∀ r ∈ init, r < objects.length := fun r hr => hs r (by simp [hr])
    simp only [Store.create, Store._addBlock, Store.assign, Store.view, Blockchain._addBlock,
      modify_append_length, List.getLast?_concat, List.getElem?_append_left hlast,
      List.getElem?_eq_getElem hlast, List.filterMap_append, List.filterMap_cons,
      List.filterMap_nil, filterMap_getElem_append _ _ _ hinit, List.getElem?_concat_length,
      List.append_assoc, List.singleton_append, List.length_append, List.length_cons,
      List.length_nil, filterMap_getElem_length objects init hinit]

theorem Store.chain_after_addBlock (sha : String → String) (s : Store) (r now : Nat) :
    (s._addBlock sha r now).chain = s.chain ++ [r] := by
  unfold Store._addBlock
  simp only [Store.assign]
  split
  · split <;> rfl
  · rfl

theorem Store.addBlock_objects_length (sha : String → String) (s : Store) (r now : Nat) :
    (s._addBlock sha r now).objects.length = s.objects.length := by
  unfold Store._addBlock
  simp only [Store.assign]
  split
  · split <;> simp
  · simp

/-- After a call of `_addBlock`, with whatever object, the counter `height`
is the length of the chain, which is not `-1`. -/
theorem Store.height_after_addBlock (sha : String → String) (s : Store) (r now : Nat) :
    (s._addBlock sha r now).view.height = ((s.chain.length + 1 : Nat) : Int) := by
  unfold Store._addBlock
  simp only [Store.assign, Store.view]
  split
  · split <;> simp
  · simp

/-- The numbers stored in the chain stay numbers of objects when a new object
is added. -/
theorem Store.valid_addBlock_create (sha : String → String) (s : Store)
    (hs : ∀ r ∈ s.chain, r < s.objects.length) (block : Block) (now : Nat) :
    ∀ r ∈ ((s.create block).1._addBlock sha (s.create block).2 now).chain,
      r < ((s.create block).1._addBlock sha (s.create block).2 now).objects.length := by
  intro r hr
  rw [Store.addBlock_objects_length]
  rw [Store.chain_after_addBlock] at hr
  simp only [Store.create, List.mem_append, List.mem_singleton, List.length_append,
    List.length_singleton] at hr ⊢
  rcases hr with hr | hr
  · have := hs r hr
    omega
  · omega

theorem initializeChain_of_height (sha : String → String) (bc : Blockchain) (now : Nat)
    (h : bc.height ≠ -1) : bc.initializeChain sha now = bc := by
  unfold Blockchain.initializeChain
  rw [if_neg h]

theorem filterMap_getElem_modify {α : Type} (f : α → α) (l : List α) (r : Nat) (chain : List Nat)
    (h : r ∉ chain) :
    (chain.filterMap fun q => (l.modify f r)[q]?) = chain.filterMap fun q => l[q]? := by
  apply List.filterMap_congr
  intro q hq
  have hne : r ≠ q := fun e => h (e ▸ hq)
  rw [List.getElem?_modify]
  simp [hne]

/-- Method `_addBlock` called with an object that is not stored in the chain
does to the ledger a reader sees what `Blockchain._addBlock` does to it with
the fields of that object. -/
theorem Store.view_addBlock_fresh (sha : String → String) (s : Store)
    (hs : ∀ q ∈ s.chain, q < s.objects.length) (r : Nat) (block : Block)
    (hr : s.objects[r]? = some block) (hfresh : r ∉ s.chain) (now : Nat) :
    (s._addBlock sha r now).view = (s.view._addBlock sha block now).1 := by
  obtain ⟨objects, chain, height⟩ := s
  simp only at hs hr hfresh
  have hlen := filterMap_getElem_length objects chain hs
  rcases List.eq_nil_or_concat chain with rfl | ⟨init, last, rfl⟩
  · simp [Store._addBlock, Store.assign, Store.view, Blockchain._addBlock,
      List.getElem?_modify, hr]
  · rw [List.concat_eq_append] at hs hlen hfresh ⊢
    have hlast : last < objects.length := hs last (by simp)
    have hne : r ≠ last := fun e => hfresh (by simp [e])
    have hinit : ∀ q ∈ init, q < objects.length := fun q hq => hs q (by simp [hq])
    have hfi : r ∉ init := fun e => hfresh (by simp [e])
    simp only [Store._addBlock, Store.assign, Store.view, Blockchain._addBlock,
      List.getLast?_concat, List.getElem?_modify, hne, if_false, List.getElem?_eq_getElem hlast,
      Option.map_eq_map, Option.map_some', List.filterMap_append,
      List.filterMap_cons, List.filterMap_nil, filterMap_getElem_modify _ _ _ _ hfi, hr,
      List.length_append, List.length_cons, List.length_nil,
      filterMap_getElem_length objects init hinit, if_true]
    have hf : ∀ g : Nat → Option Block, (∀ q ∈ init, g q = objects[q]?) →
        init.filterMap g = init.filterMap fun q => objects[q]? :=
      fun g hg => List.filterMap_congr hg
    rw [hf]
    intro q hq
    have hq' : r ≠ q := fun e => hfi (e ▸ hq)
    simp [hq']

/-- A call of `_addBlock` with an object that is not stored in the chain
leads from a reachable ledger to a reachable ledger. -/
theorem Store.reachable_addBlock_fresh (sha : String → String)
    (verify : String → String → String → Option Bool) (s : Store)
    (h : Reachable sha verify s.view) (hs : ∀ q ∈ s.chain, q < s.objects.length) (r : Nat)
    (block : Block) (hr : s.objects[r]? = some block) (hfresh : r ∉ s.chain) (now : Nat) :
    Reachable sha verify (s._addBlock sha r now).view := by
  rw [Store.view_addBlock_fresh sha s hs r block hr hfresh now]
  exact Reachable.addBlock _ _ _ h

/-! ### The listing and its specification -/

theorem lookup_eq_find (kvs : List (String × JSON)) :
    kvs.lookup "address" = (kvs.find? fun kv => kv.1 = "address").map fun kv => kv.2 := by
  induction kvs with
  | nil => rfl
  | cons kv kvs ih =>
    obtain ⟨k, v⟩ := kv
    by_cases hk : k = "address"
    · subst hk
      simp [List.lookup, List.find?]
    · have h1 : ("address" == k) = false := by
        rw [beq_eq_false_iff_ne]
        exact fun e => hk e.symm
      simp only [List.lookup, h1, List.find?, hk, decide_False, ih]

/-- The test of the callback of `getStarsByWalletAddress` holds of a decoded
payload exactly when its identity field is the identity asked for. -/
theorem hasAddress_iff (data : JSON) (address : String) :
    (data.truthy = true ∧ data.hasAddress address = true) ↔ specAddress data = some address := by
  cases data with
  | obj kvs =>
    unfold JSON.hasAddress specAddress
    simp only [lookup_eq_find]
    cases hf : kvs.find? (fun kv => kv.1 = "address") with
    | none => simp [JSON.truthy]
    | some kv =>
      obtain ⟨k, v⟩ := kv
      cases v <;> simp [JSON.truthy]
  | null => simp [JSON.hasAddress, specAddress, JSON.truthy]
  | bool b => simp [JSON.hasAddress, specAddress]
  | num n => simp [JSON.hasAddress, specAddress]
  | dec m e => simp [JSON.hasAddress, specAddress]
  | str s => simp [JSON.hasAddress, specAddress]
  | arr xs => simp [JSON.hasAddress, specAddress]

/-- What the callback adds for a block above height 0: the decoded body, if
its identity field is the identity asked for. -/
theorem starOf_eq (address : String) (b : Block) (h : b.height ≠ 0) :
    starOf address b =
      (JSON.parse (hex2ascii b.body)).filter fun data => specAddress data = some address := by
  unfold starOf Block.getBData
  simp only [h, if_false]
  cases hp : JSON.parse (hex2ascii b.body) with
  | none => rfl
  | some data =>
    simp only [Settled.settle, Option.filter]
    by_cases hc : data.truthy = true ∧ data.hasAddress address = true
    · have := (hasAddress_iff data address).1 hc
      simp [hc, this]
    · have : ¬ specAddress data = some address := fun e => hc ((hasAddress_iff data address).2 e)
      simp [hc, this]

theorem filterMap_starOf (address : String) (l : List Block) (h : ∀ b ∈ l, b.height ≠ 0) :
    l.filterMap (starOf address) =
      (l.filterMap fun b => JSON.parse (hex2ascii b.body)).filter
        fun data => specAddress data = some address := by
  rw [List.filter_filterMap]
  apply List.filterMap_congr
  intro b hb
  exact starOf_eq address b (h b hb)

/-- The objects after a call of `_addBlock`: the object the call was made
with has the length of the chain as height, the other objects are as they
were. -/
theorem Store.addBlock_objects (sha : String → String) (s : Store) (r now : Nat) :
    ∃ F : Block → Block, (∀ a, (F a).height = s.chain.length) ∧
      ∀ q, (s._addBlock sha r now).objects[q]? =
        (s.objects[q]?).map fun a => if r = q then F a else a := by
  unfold Store._addBlock
  simp only [Store.assign]
  have key : ∀ (f3 : Block → Block), (∀ a, (f3 a).height = a.height) →
      ∃ F : Block → Block, (∀ a, (F a).height = s.chain.length) ∧
        ∀ q, ((((s.objects.modify (fun b => { b with height := s.chain.length }) r).modify
          (fun b => { b with time := .str (sliceSeconds now) }) r).modify f3 r).modify
          (fun b => { b with hash := some (sha b.toJSON.stringify) }) r)[q]? =
          (s.objects[q]?).map fun a => if r = q then F a else a := by
    intro f3 h3
    refine ⟨fun a => (fun b : Block => { b with hash := some (sha b.toJSON.stringify) })
      (f3 ((fun b : Block => { b with time := .str (sliceSeconds now) })
        ((fun b : Block => { b with height := s.chain.length }) a))), fun a => ?_, ?_⟩
    · simp only [h3]
    · intro q
      simp only [List.getElem?_modify, Option.map_eq_map, Option.map_map]
      congr 1
      funext a
      by_cases h : r = q <;> simp [h]
  split
  · split
    · rename_i lastBlock _
      obtain ⟨F, hF, hq⟩ := key (fun b => { b with previousBlockHash := lastBlock.hash })
        (fun a => rfl)
      exact ⟨F, hF, hq⟩
    · obtain ⟨F, hF, hq⟩ := key id (fun a => rfl)
      refine ⟨F, hF, fun q => ?_⟩
      rw [← hq q, List.modify_id]
  · obtain ⟨F, hF, hq⟩ := key id (fun a => rfl)
    refine ⟨F, hF, fun q => ?_⟩
    rw [← hq q, List.modify_id]

theorem filterMap_zero_count (f g : Nat → Option Block) (chain : List Nat)
    (h : ∀ q, (f q = none ∧ g q = none) ∨
      ∃ a b, f q = some a ∧ g q = some b ∧ (a.height = 0 → b.height = 0)) :
    ((chain.filterMap f).filter fun b => b.height = 0).length ≤
      ((chain.filterMap g).filter fun b => b.height = 0).length := by
  induction chain with
  | nil => simp
  | cons q chain ih =>
    rcases h q with ⟨h1, h2⟩ | ⟨a, b, h1, h2, h3⟩
    · simp only [List.filterMap_cons, h1, h2]
      exact ih
    · simp only [List.filterMap_cons, h1, h2, List.filter_cons]
      by_cases ha : a.height = 0
      · simp only [ha, h3 ha, decide_True, if_true, List.length_cons]
        omega
      · by_cases hb : b.height = 0
        · simp only [ha, hb, decide_True, decide_False, if_true, List.length_cons]
          simp only [Bool.false_eq_true, if_false]
          omega
        · simp only [ha, hb, decide_False, Bool.false_eq_true, if_false]
          exact ih

/-- A call of `_addBlock` on a chain that is not empty, with whatever object,
does not add to the blocks of height 0. -/
theorem Store.addBlock_genesis_count (sha : String → String) (s : Store) (r now : Nat)
    (hne : s.chain ≠ []) :
    ((s._addBlock sha r now).view.chain.filter fun b => b.height = 0).length ≤
      (s.view.chain.filter fun b => b.height = 0).length := by
  obtain ⟨F, hF, hobj⟩ := Store.addBlock_objects sha s r now
  have hlen : 0 < s.chain.length := List.length_pos.2 hne
  have hq : ∀ q : Nat, ((s._addBlock sha r now).objects[q]? = none ∧ s.objects[q]? = none) ∨
      ∃ a b : Block, (s._addBlock sha r now).objects[q]? = some a ∧ s.objects[q]? = some b ∧
        (a.height = 0 → b.height = 0) := by
    intro q
    rw [hobj q]
    cases hs : s.objects[q]? with
    | none => exact Or.inl ⟨rfl, rfl⟩
    | some b =>
      refine Or.inr ⟨_, b, rfl, rfl, ?_⟩
      by_cases h : r = q
      · simp only [h, if_true, hF]
        omega
      · simp [h]
  unfold Store.view
  simp only [Store.chain_after_addBlock, List.filterMap_append, List.filter_append, List.length_append]
  have h1 := filterMap_zero_count (fun q => (s._addBlock sha r now).objects[q]?)
    (fun q => s.objects[q]?) s.chain hq
  have h2 : ((([r] : List Nat).filterMap fun q => (s._addBlock sha r now).objects[q]?).filter
      fun b => b.height = 0).length = 0 := by
    simp only [List.filterMap_cons, List.filterMap_nil, hobj r]
    cases s.objects[r]? with
    | none => simp
    | some b =>
      simp only [Option.map_some', if_true, List.filter_cons, hF]
      have : ¬ s.chain.length = 0 := by omega
      simp [this]
  omega

theorem build_append (sha : String → String) (genesisTime : Nat) (steps : List (JSON × Nat))
    (step : JSON × Nat) :
    Blockchain.build sha genesisTime (steps ++ [step]) =
      ((Blockchain.build sha genesisTime steps)._addBlock sha (Block.new step.1) step.2).1 := by
  unfold Blockchain.build
  rw [List.foldl_append]
  rfl

theorem build_length (sha : String → String) (genesisTime : Nat) (steps : List (JSON × Nat)) :
    (Blockchain.build sha genesisTime steps).chain.length = steps.length + 1 := by
  induction steps using List.reverseRecOn with
  | nil => rfl
  | append_singleton steps step ih =>
    rw [build_append, addBlock_chain]
    simp [ih]

/-- The block at position `i + 1` of a built ledger holds the payload of
append `i`, as the constructor of `Block` encodes it. -/
theorem build_body (sha : String → String) (genesisTime : Nat) (steps : List (JSON × Nat)) :
    ∀ (i : Nat) (step : JSON × Nat), steps[i]? = some step →
      ∃ b, (Blockchain.build sha genesisTime steps).chain[i + 1]? = some b ∧
        b.body = bufferHex step.1.stringify := by
  induction steps using List.reverseRecOn with
  | nil => intro i step h; simp at h
  | append_singleton steps last ih =>
    intro i step h
    rw [build_append, addBlock_chain]
    by_cases hi : i < steps.length
    · rw [List.getElem?_append_left hi] at h
      obtain ⟨b, hb, hbody⟩ := ih i step h
      refine ⟨b, ?_, hbody⟩
      rw [List.getElem?_append_left (by rw [build_length]; omega)]
      exact hb
    · have hlen : i = steps.length := by
        have := (List.getElem?_eq_some.1 h).1
        simp at this
        omega
      subst hlen
      have hs : last = step := by simpa using h
      refine ⟨((Blockchain.build sha genesisTime steps)._addBlock sha (Block.new last.1)
        last.2).2, ?_, ?_⟩
      · rw [List.getElem?_append_right (by rw [build_length])]
        simp [build_length]
      · rw [addBlock_body, hs]
        rfl

/-! ## Claims -/

/-- C1: for every sequence of payloads and every clock reading, in the ledger
obtained by constructing a Blockchain and calling `_addBlock` once per payload
on a freshly constructed Block, `validateChain()` resolves to the empty
problem list. -/
theorem C1_validateChain_build_empty (sha : String → String) (genesisTime : Nat)
    (steps : List (JSON × Nat)) :
    (Blockchain.build sha genesisTime steps).validateChain sha = [] :=
  build_validateChain sha genesisTime steps

/-- C2: in a ledger built by the constructor and appends of fresh blocks,
changing one field of the block `b` at a position `i` to a different value
makes `validateChain()` return a non-empty problem list that contains a
problem string with the hash of the changed block, as long as the digest of
the changed block does not collide with the digest of the original. -/
theorem C2_tamper_reported (sha : String → String) (genesisTime : Nat)
    (steps : List (JSON × Nat)) (i : Nat) (b : Block) (t : Tamper)
    (hb : (Blockchain.build sha genesisTime steps).chain[i]? = some b)
    (hne : t.apply b ≠ b)
    (hsha : (t.apply b).canonical ≠ b.canonical → sha (t.apply b).canonical ≠ sha b.canonical) :
    Blockchain.validateChain sha
        { Blockchain.build sha genesisTime steps with
          chain := (Blockchain.build sha genesisTime steps).chain.set i (t.apply b) } ≠ [] ∧
      "Block " ++ hashText (t.apply b).hash ++ " is invalid" ∈
        Blockchain.validateChain sha
          { Blockchain.build sha genesisTime steps with
            chain := (Blockchain.build sha genesisTime steps).chain.set i (t.apply b) } := by
  have hi : i < (Blockchain.build sha genesisTime steps).chain.length := by
    rcases List.getElem?_eq_some_iff.1 hb with ⟨hi, -⟩
    exact hi
  have hmem : b ∈ (Blockchain.build sha genesisTime steps).chain := List.getElem?_mem hb
  have hvalid := validate_of_validateChain sha _ (build_validateChain sha genesisTime steps) b hmem
  have hfalse := t.validate_false sha b hvalid hne hsha
  have hin : "Block " ++ hashText (t.apply b).hash ++ " is invalid" ∈
      Blockchain.validateChain sha
        { Blockchain.build sha genesisTime steps with
          chain := (Blockchain.build sha genesisTime steps).chain.set i (t.apply b) } :=
    validateChain_invalid sha _ (t.apply b) (List.mem_set _ i hi _) hfalse
  exact ⟨List.ne_nil_of_mem hin, hin⟩

/-- C2 at the genesis block of a fresh ledger, its body changed, with the
identity as digest. -/
theorem C2_tamper_reported_witness :
    Blockchain.validateChain plainDigest
        { Blockchain.build plainDigest 1700000000000 [] with
          chain := (Blockchain.build plainDigest 1700000000000 []).chain.set 0
            ((Tamper.body "00").apply genesisExample) } ≠ [] ∧
      "Block " ++ hashText ((Tamper.body "00").apply genesisExample).hash ++ " is invalid" ∈
        Blockchain.validateChain plainDigest
          { Blockchain.build plainDigest 1700000000000 [] with
            chain := (Blockchain.build plainDigest 1700000000000 []).chain.set 0
              ((Tamper.body "00").apply genesisExample) } :=
  C2_tamper_reported plainDigest 1700000000000 [] 0 genesisExample (Tamper.body "00") rfl
    (by decide) (fun h => h)

/-- C3: the round trip fails on a non-ASCII payload.  The block built from
the payload `{"star":"é"}`, at height 1, has `getBData()` resolve to
`{"star":"Ã©"}`: the constructor writes the UTF-8 bytes of the text and
`hex2ascii` reads every byte as one character. -/
theorem C3_getBData_non_ascii :
    ({ Block.new (.obj [("star", .str "é")]) with height := 1 }).getBData =
        .resolved (.obj [("star", .str "Ã©")]) ∧
      JSON.obj [("star", .str "Ã©")] ≠ JSON.obj [("star", .str "é")] :=
  ⟨rfl, fun h => absurd (JSON.str.inj (Prod.mk.inj (List.cons.inj (JSON.obj.inj h)).1).2)
    (by decide)⟩

/-- C4: for every block whose height is 0, whatever its body, `getBData()`
is rejected with the genesis-block error: no decode result changes the
outcome. -/
theorem C4_getBData_genesis (b : Block) (h : b.height = 0) :
    b.getBData = .rejected "This is the Genesis Block" := by
  unfold Block.getBData
  simp only [h, if_true]
  cases JSON.parse (hex2ascii b.body) <;> rfl

/-- C4 at a block of height 0 whose body cannot be decoded. -/
theorem C4_getBData_genesis_witness :
    ({ hash := none, height := 0, body := "zz", time := .num 0,
       previousBlockHash := none } : Block).getBData = .rejected "This is the Genesis Block" :=
  C4_getBData_genesis _ rfl

/-- C5 fails in the first second of the epoch: at clock reading 500 the
digits left of the last three are the empty string and the constant
`currentTime` is `NaN`, so that the comparison is false.  The challenge
`a:-400:starRegistry` has the timestamp -400, more than 300 seconds before
second 0, and on a ledger without problems `submitStar` is not rejected for
expiry, whatever the signature check says; when it accepts the signature the
promise resolves. -/
theorem C5_first_second :
    currentTime 500 = none ∧ messageTime "a:-400:starRegistry" = some (-400) ∧
      ((500 / 1000 : Nat) : Int) - (-400) > 300 ∧
      (Blockchain.new plainDigest 1700000000000).validateChain plainDigest = [] ∧
      (∀ verify, ((Blockchain.new plainDigest 1700000000000).submitStar plainDigest verify "a"
        "a:-400:starRegistry" "sig" (.str "Polaris") 500 600).2 ≠
          .rejected (.text "5 minute exceeded")) ∧
      ∃ block, ((Blockchain.new plainDigest 1700000000000).submitStar plainDigest acceptAll "a"
        "a:-400:starRegistry" "sig" (.str "Polaris") 500 600).2 = .resolved block := by
  refine ⟨by decide, by decide, by decide, by decide, ?_, _, rfl⟩
  intro verify
  rw [submitStar_valid _ _ _ _ _ _ _ _ _ (by decide)]
  rw [if_neg (by decide)]
  rcases verify "a:-400:starRegistry" "a" "sig" with _ | _ | _ <;> simp

/-- C5, amended: on a ledger without problems, for a challenge whose embedded
timestamp is `m` and a clock reading of `c ≥ 1` whole seconds, `submitStar`
is rejected with the expiry error when `c - m > 300`, whatever the signature;
when `c - m ≤ 300` (also for a timestamp in the future) it is not rejected
for expiry, and it resolves when the signature verifies. -/
theorem C5_submitStar_expiry (sha : String → String)
    (verify : String → String → String → Option Bool) (bc : Blockchain)
    (address message signature : String) (star : JSON) (now addTime : Nat) (m : Int) (c : Nat)
    (hvalid : bc.validateChain sha = []) (hm : messageTime message = some m)
    (hc : now / 1000 = c) (h1 : 1 ≤ c) :
    ((c : Int) - m > 300 →
        bc.submitStar sha verify address message signature star now addTime =
          (bc, .rejected (.text "5 minute exceeded"))) ∧
      ((c : Int) - m ≤ 300 →
        (bc.submitStar sha verify address message signature star now addTime).2 ≠
            .rejected (.text "5 minute exceeded") ∧
          (verify message address signature = some true →
            ∃ block, (bc.submitStar sha verify address message signature star now addTime).2 =
              .resolved block)) := by
  have hnow : 1000 ≤ now := by omega
  have he := expired_iff message now m c hm (by rw [currentTime_eq hnow, hc])
  rw [submitStar_valid _ _ _ _ _ _ _ _ _ hvalid]
  constructor
  · intro h
    rw [if_pos (he.2 h)]
  · intro h
    have hne : ¬ expired message now = true := fun e => by have := he.1 e; omega
    rw [if_neg hne]
    constructor
    · rcases verify message address signature with _ | _ | _ <;> simp
    · intro hv
      rw [hv]
      exact ⟨_, rfl⟩

/-- C5, amended, at the boundary: a challenge issued at second 1700000000 and
submitted at second 1700000300 with a verifying signature is resolved. -/
theorem C5_submitStar_expiry_witness :
    ∃ block, ((Blockchain.new plainDigest 1700000000000).submitStar plainDigest acceptAll "addr1"
      "addr1:1700000000:starRegistry" "sig" (.str "Polaris") 1700000300999 1700000301000).2 =
        .resolved block :=
  ((C5_submitStar_expiry plainDigest acceptAll (Blockchain.new plainDigest 1700000000000) "addr1"
    "addr1:1700000000:starRegistry" "sig" (.str "Polaris") 1700000300999 1700000301000
    1700000000 1700000300 (by decide) (by decide) (by decide) (by decide)).2 (by decide)).2 rfl

/-- C6: on a ledger without problems, with a challenge that is not expired
and a signature the check refuses, `submitStar` is rejected with the
invalid-signature error and the ledger is left as it was. -/
theorem C6_submitStar_invalid_signature (sha : String → String)
    (verify : String → String → String → Option Bool) (bc : Blockchain)
    (address message signature : String) (star : JSON) (now addTime : Nat)
    (hvalid : bc.validateChain sha = []) (hfresh : expired message now = false)
    (hsig : verify message address signature = some false) :
    bc.submitStar sha verify address message signature star now addTime =
      (bc, .rejected (.text "Invalid Signature")) := by
  rw [submitStar_valid _ _ _ _ _ _ _ _ _ hvalid, hfresh, hsig]
  rfl

/-- C6 on a fresh ledger with a challenge 100 seconds old. -/
theorem C6_submitStar_invalid_signature_witness :
    (Blockchain.new plainDigest 1700000000000).submitStar plainDigest refuseAll "addr1"
      "addr1:1700000000:starRegistry" "sig" (.str "Polaris") 1700000100000 1700000100000 =
        (Blockchain.new plainDigest 1700000000000, .rejected (.text "Invalid Signature")) :=
  C6_submitStar_invalid_signature plainDigest refuseAll (Blockchain.new plainDigest 1700000000000)
    "addr1" "addr1:1700000000:starRegistry" "sig" (.str "Polaris") 1700000100000 1700000100000
    (by decide) (by decide) rfl

/-- C7: when `validateChain()` returns a non-empty problem list `L`,
`submitStar` is rejected with exactly `L` and leaves the ledger as it was,
for every identity, challenge, signature, payload, signature check and
clock reading. -/
theorem C7_submitStar_corrupted (sha : String → String)
    (verify : String → String → String → Option Bool) (bc : Blockchain)
    (address message signature : String) (star : JSON) (now addTime : Nat) (L : List String)
    (hL : bc.validateChain sha = L) (hne : L ≠ []) :
    bc.submitStar sha verify address message signature star now addTime =
      (bc, .rejected (.errorLog L)) := by
  subst hL
  exact submitStar_invalid sha verify bc address message signature star now addTime hne

/-- C7 on a ledger with an overwritten body, with a fresh challenge and an
accepted signature. -/
theorem C7_submitStar_corrupted_witness :
    corruptedExample.submitStar plainDigest acceptAll "addr1" "addr1:1700000000:starRegistry"
      "sig" (.str "Polaris") 1700000100000 1700000100000 =
        (corruptedExample, .rejected (.errorLog (corruptedExample.validateChain plainDigest))) :=
  C7_submitStar_corrupted plainDigest acceptAll corruptedExample "addr1"
    "addr1:1700000000:starRegistry" "sig" (.str "Polaris") 1700000100000 1700000100000
    (corruptedExample.validateChain plainDigest) rfl (by decide)

/-- C8: whenever the promise of `submitStar` is not resolved (rejected for a
corrupted chain, an expired challenge or an invalid signature, or never
settled), the chain and the counter `height` after the call are those before
it. -/
theorem C8_submitStar_atomic (sha : String → String)
    (verify : String → String → String → Option Bool) (bc : Blockchain)
    (address message signature : String) (star : JSON) (now addTime : Nat)
    (hfail : ∀ block,
      (bc.submitStar sha verify address message signature star now addTime).2 ≠
        .resolved block) :
    (bc.submitStar sha verify address message signature star now addTime).1 = bc := by
  by_cases h : bc.validateChain sha = []
  · rw [submitStar_valid _ _ _ _ _ _ _ _ _ h] at hfail ⊢
    cases he : expired message now
    · rw [he] at hfail
      rcases hv : verify message address signature with _ | _ | _
      · simp
      · simp
      · rw [hv] at hfail
        exact absurd rfl (hfail _)
    · simp
  · rw [submitStar_invalid _ _ _ _ _ _ _ _ _ h]

/-- C8 on a fresh ledger with a challenge 301 seconds old. -/
theorem C8_submitStar_atomic_witness :
    ((Blockchain.new plainDigest 1700000000000).submitStar plainDigest acceptAll "addr1"
      "addr1:1700000000:starRegistry" "sig" (.str "Polaris") 1700000301000 1700000301000).1 =
        Blockchain.new plainDigest 1700000000000 :=
  C8_submitStar_atomic plainDigest acceptAll (Blockchain.new plainDigest 1700000000000) "addr1"
    "addr1:1700000000:starRegistry" "sig" (.str "Polaris") 1700000301000 1700000301000
    (fun block h => Settled.noConfusion
      (show Settled.rejected (Rejection.text "5 minute exceeded") = Settled.resolved block from h))

/-- C9: the decoded payload differs on a non-ASCII payload.  On a fresh
ledger, with a fresh challenge and an accepted signature, `submitStar` of the
payload `{"star":"é"}` resolves to a block of height 1 whose `getBData()`
resolves to `{"address":"addr1","star":{"star":"Ã©"}}`, not to the object
with the submitted payload. -/
theorem C9_submitStar_non_ascii (sha : String → String) :
    ∃ block,
      ((Blockchain.new sha 1700000000000).submitStar sha acceptAll "addr1"
        "addr1:1700000000:starRegistry" "sig" (.obj [("star", .str "é")]) 1700000100000
        1700000100000).2 = .resolved block ∧
        block.height = 1 ∧
        block.getBData =
          .resolved (.obj [("address", .str "addr1"), ("star", .obj [("star", .str "Ã©")])]) := by
  rw [submitStar_valid _ _ _ _ _ _ _ _ _ (new_validateChain sha 1700000000000)]
  rw [if_neg (by decide)]
  refine ⟨_, rfl, addBlock_height _ _ _ _, ?_⟩
  unfold Block.getBData
  rw [addBlock_height, addBlock_body]
  rfl

/-- C10 fails when `_addBlock` is called with a block that the chain already
holds: after `new Blockchain()`, `_addBlock(b)` for a new block `b` and
`_addBlock(b)` once more, the object `b` is stored at positions 1 and 2 with
the height 2, `getChainHeight()` resolves to 3 and `getBlockByHeight(1)`
resolves to `null`. -/
theorem C10_block_added_twice :
    reappendExample.chain = [0, 1, 1] ∧ reappendExample.view.getChainHeight = 3 ∧
      reappendExample.view.getBlockByHeight 1 = .resolved none := by
  decide

/-- C10, amended: in every ledger reached by the constructor and calls of
`_addBlock`, `submitStar` and `initializeChain` in which `_addBlock` is called
with a block object that is not stored in the chain, with
`height = getChainHeight()`, `getBlockByHeight(h)` resolves for every integer
`0 ≤ h < height` to a block whose height is `h`, and
`getBlockByHeight(height)` resolves to `null`; a call of `_addBlock` with an
object that is not stored in the chain leads to such a ledger again. -/
theorem C10_getBlockByHeight (sha : String → String)
    (verify : String → String → String → Option Bool) (bc : Blockchain)
    (hr : Reachable sha verify bc) :
    ((∀ h : Int, 0 ≤ h → h < bc.getChainHeight →
        ∃ b, bc.getBlockByHeight h = .resolved (some b) ∧ (b.height : Int) = h) ∧
      bc.getBlockByHeight bc.getChainHeight = .resolved none) ∧
      ∀ (s : Store) (r : Nat) (block : Block) (now : Nat), s.view = bc →
        (∀ q ∈ s.chain, q < s.objects.length) → s.objects[r]? = some block → r ∉ s.chain →
        Reachable sha verify (s._addBlock sha r now).view := by
  obtain ⟨hh, hidx⟩ := hr.indexed
  unfold Blockchain.getChainHeight
  refine ⟨⟨?_, ?_⟩, ?_⟩
  · intro h h0 hlt
    rw [hh] at hlt
    obtain ⟨b, hb, hbh⟩ := (filter_height_head bc.chain hidx h).1 h0 hlt
    exact ⟨b, by rw [getBlockByHeight_eq, hb], hbh⟩
  · rw [getBlockByHeight_eq, (filter_height_head bc.chain hidx bc.height).2 hh]
  · intro s r block now hv hs hb hfresh
    exact Store.reachable_addBlock_fresh sha verify s (hv ▸ hr) hs r block hb hfresh now

/-- C10, amended, on a fresh ledger: height 1 is one past the end. -/
theorem C10_getBlockByHeight_witness :
    (Blockchain.new plainDigest 1700000000000).getBlockByHeight 1 = .resolved none :=
  (C10_getBlockByHeight plainDigest acceptAll (Blockchain.new plainDigest 1700000000000)
    (Reachable.new 1700000000000)).1.2

/-- C11: for every chain and every hash string `x`, `getBlockByHash(x)` is
rejected with the not-found error if and only if no block of the chain has
hash `x`; otherwise it resolves to the first block in chain order whose hash
is `x`.  The operation reads the chain and returns no new ledger. -/
theorem C11_getBlockByHash (bc : Blockchain) (x : String) :
    (bc.getBlockByHash x = .rejected "Block not found" ↔ ∀ b ∈ bc.chain, b.hash ≠ some x) ∧
      ((∃ b ∈ bc.chain, b.hash = some x) →
        ∃ pre b post, bc.chain = pre ++ b :: post ∧ b.hash = some x ∧
          (∀ p ∈ pre, p.hash ≠ some x) ∧ bc.getBlockByHash x = .resolved b) := by
  unfold Blockchain.getBlockByHash
  rcases filter_first (fun b : Block => decide (b.hash = some x)) bc.chain with
    ⟨h1, h2⟩ | ⟨pre, b, post, h1, h2, h3, h4⟩
  · have hno : ∀ b ∈ bc.chain, b.hash ≠ some x := fun b hb => by simpa using h2 b hb
    rw [h1]
    refine ⟨⟨fun _ => hno, fun _ => rfl⟩, ?_⟩
    rintro ⟨b, hb, hx⟩
    exact absurd hx (hno b hb)
  · have hb : b.hash = some x := by simpa using h2
    rw [h4]
    refine ⟨⟨fun h => (by cases h), fun h => ?_⟩, fun _ => ⟨pre, b, post, h1, hb, ?_, rfl⟩⟩
    · exact absurd hb (h b (by rw [h1]; simp))
    · intro p hp
      simpa using h3 p hp

/-- C12: in a ledger built by the constructor and appends of fresh blocks,
`getStarsByWalletAddress(a)` resolves to the listing of the specification:
the decoded bodies of the blocks other than the block at height 0 whose
identity field is `a`, in chain order.  Every block above height 0 has a
decoded body, so that each of them is looked at; the block at position
`i + 1` holds the payload of append `i`; and in any chain the result does not
depend on what the first block holds. -/
theorem C12_getStarsByWalletAddress (sha : String → String) (genesisTime : Nat)
    (steps : List (JSON × Nat)) (a : String) :
    (Blockchain.build sha genesisTime steps).getStarsByWalletAddress a =
        .resolved (specListing (Blockchain.build sha genesisTime steps).chain a) ∧
      (∀ b ∈ (Blockchain.build sha genesisTime steps).chain, b.height ≠ 0 →
        ∃ data, JSON.parse (hex2ascii b.body) = some data) ∧
      (∀ (i : Nat) (step : JSON × Nat), steps[i]? = some step →
        ∃ b, (Blockchain.build sha genesisTime steps).chain[i + 1]? = some b ∧
          b.body = bufferHex step.1.stringify) ∧
      ∀ (g g' : Block) (rest : List Block) (h h' : Int),
        Blockchain.getStarsByWalletAddress { chain := g :: rest, height := h } a =
          Blockchain.getStarsByWalletAddress { chain := g' :: rest, height := h' } a := by
  have hdec : ∀ b ∈ (Blockchain.build sha genesisTime steps).chain, b.height ≠ 0 →
      ∃ data, b.getBData = .resolved data :=
    fun b hb hh => getBData_encoded b (build_encoded sha genesisTime steps b hb) hh
  refine ⟨?_, ?_, build_body sha genesisTime steps, ?_⟩
  · have hidx := build_indexed sha genesisTime steps
    unfold Blockchain.getStarsByWalletAddress
    rw [asyncForEach_stars a _ 0 [] (fun j b hb => by rw [hidx j b hb]; omega) hdec]
    simp only [List.nil_append]
    rw [filterMap_starOf a _ (fun b hb => by simpa using (List.mem_filter.1 hb).2)]
    rfl
  · intro b hb _
    obtain ⟨x, hx⟩ := build_encoded sha genesisTime steps b hb
    rw [hx]
    exact parse_encoded x
  · intro g g' rest h h'
    unfold Blockchain.getStarsByWalletAddress
    rw [asyncForEach, asyncForEach]
    rfl

/-- C12 at a ledger with three appends, two of them for `addr1`: the listing
of `addr1` is the first and the third payload, in that order. -/
theorem C12_getStarsByWalletAddress_witness :
    (Blockchain.build plainDigest 1700000000000
        [(.obj [("address", .str "addr1"), ("star", .str "Vega")], 1700000001000),
         (.obj [("address", .str "addr2"), ("star", .str "Deneb")], 1700000002000),
         (.obj [("address", .str "addr1"), ("star", .obj [("mag", .dec 15 1)])],
           1700000003000)]).getStarsByWalletAddress "addr1" =
      .resolved [.obj [("address", .str "addr1"), ("star", .str "Vega")],
        .obj [("address", .str "addr1"), ("star", .obj [("mag", .dec 15 1)])]] :=
  (C12_getStarsByWalletAddress plainDigest 1700000000000 _ "addr1").1.trans rfl

/-- C13 fails: in the ledger whose second block has the body `zz`, which
`JSON.parse` refuses, `getStarsByWalletAddress` is never settled; it does not
resolve to the list of the other matching payloads. -/
theorem C13_undecodable_pending :
    JSON.parse (hex2ascii "zz") = none ∧
      undecodableExample.getStarsByWalletAddress "addr1" = .pending :=
  ⟨rfl, rfl⟩

/-- C13, amended: when the body of some block after the first fails to
decode, `getStarsByWalletAddress` does not resolve: no list of payloads is
returned and the block is not passed over as a block that does not match. -/
theorem C13_undecodable_not_resolved (bc : Blockchain) (address : String) (i : Nat) (b : Block)
    (hb : bc.chain[i + 1]? = some b) (hdec : JSON.parse (hex2ascii b.body) = none) :
    ∀ stars, bc.getStarsByWalletAddress address ≠ .resolved stars := by
  intro stars
  unfold Blockchain.getStarsByWalletAddress
  have h := asyncForEach_not_resolved (starsCallback address) bc.chain 0 [] (i + 1) b hb
    (fun s s' => by
      unfold starsCallback
      rw [if_pos (by omega)]
      cases hg : b.getBData with
      | resolved data => exact absurd hg (getBData_undecodable b hdec data)
      | rejected e => simp
      | pending => simp)
  cases hl : asyncForEach (starsCallback address) bc.chain 0 [] with
  | resolved s => exact absurd hl (h s)
  | rejected e => simp
  | pending => simp

/-- C13, amended, at the ledger whose second block has the body `zz`. -/
theorem C13_undecodable_not_resolved_witness :
    undecodableExample.getStarsByWalletAddress "addr1" ≠ .resolved [] :=
  C13_undecodable_not_resolved undecodableExample "addr1" 0
    (((Blockchain.new plainDigest 1700000000000)._addBlock plainDigest
      { Block.new .null with body := "zz" } 1700000001000).2) rfl rfl []

/-- C14 fails when `_addBlock` is called with a block that the chain already
holds: after `new Blockchain()`, `_addBlock(b)` for a new block `b` and
`_addBlock(b)` once more, the blocks at positions 0, 1 and 2 have the heights
0, 2 and 2, and the previous hash of the block at position 2 is not the hash
of the block at position 1. -/
theorem C14_block_added_twice :
    reappendExample.view.chain.map (fun b => b.height) = [0, 2, 2] ∧
      ∃ b p, reappendExample.view.chain[2]? = some b ∧
        reappendExample.view.chain[1]? = some p ∧ b.previousBlockHash ≠ p.hash :=
  ⟨by decide, _, _, rfl, rfl, by decide⟩

/-- C14, amended: in every ledger reached by the constructor and calls of
`_addBlock`, `submitStar` and `initializeChain` in which `_addBlock` is called
with a block object that is not stored in the chain, the block at position
`i` has height `i`, the block at position 0 has no previous hash, and the
previous hash of the block at position `i + 1` is the hash of the block at
position `i`; a call of `_addBlock` with an object that is not stored in the
chain leads to such a ledger again. -/
theorem C14_chain_invariant (sha : String → String)
    (verify : String → String → String → Option Bool) (bc : Blockchain)
    (hr : Reachable sha verify bc) :
    ((∀ (i : Nat) (b : Block), bc.chain[i]? = some b → b.height = i) ∧
      (∀ b : Block, bc.chain[0]? = some b → b.previousBlockHash = none) ∧
      ∀ (i : Nat) (b p : Block), bc.chain[i + 1]? = some b → bc.chain[i]? = some p →
        b.previousBlockHash = p.hash) ∧
      ∀ (s : Store) (r : Nat) (block : Block) (now : Nat), s.view = bc →
        (∀ q ∈ s.chain, q < s.objects.length) → s.objects[r]? = some block → r ∉ s.chain →
        Reachable sha verify (s._addBlock sha r now).view :=
  ⟨⟨hr.indexed.2, hr.linked.2.1, hr.linked.2.2⟩, fun s r block now hv hs hb hfresh =>
    Store.reachable_addBlock_fresh sha verify s (hv ▸ hr) hs r block hb hfresh now⟩

/-- C14, amended, at the block appended to a fresh ledger: its height is 1. -/
theorem C14_chain_invariant_witness :
    ((Blockchain.new plainDigest 1700000000000)._addBlock plainDigest (Block.new (.str "Polaris"))
      1700000001000).2.height = 1 :=
  (C14_chain_invariant plainDigest acceptAll _
    (Reachable.addBlock _ (Block.new (.str "Polaris")) 1700000001000
      (Reachable.new 1700000000000))).1.1 1 _ rfl

/-- C15 fails at the initial empty state: the constructor sets `height` to
`-1` while the chain has no block. -/
theorem C15_initial_height :
    Blockchain.initial.getChainHeight = -1 ∧ Blockchain.initial.chain.length = 0 ∧
      Blockchain.initial.getChainHeight ≠ (Blockchain.initial.chain.length : Int) := by
  decide

/-- C15, amended: in every reachable ledger, that is from the end of the
constructor on and after every call of `_addBlock`, `submitStar` and
`initializeChain`, `getChainHeight()` resolves to the number of blocks in
the chain. -/
theorem C15_height_eq_length (sha : String → String)
    (verify : String → String → String → Option Bool) (bc : Blockchain)
    (hr : Reachable sha verify bc) : bc.getChainHeight = (bc.chain.length : Int) :=
  hr.indexed.1

/-- C15, amended, at a fresh ledger. -/
theorem C15_height_eq_length_witness :
    (Blockchain.new plainDigest 1700000000000).getChainHeight = 1 :=
  C15_height_eq_length plainDigest acceptAll _ (Reachable.new 1700000000000)

/-- C16: after construction the chain is one block with height 0 and no
previous hash; in every reachable ledger a further `initializeChain()` leaves
chain and `height` as they are, and so it does after every call of
`_addBlock`, also one with a block object that the chain already holds.  No
call of `_addBlock` on a chain that is not empty adds to the blocks of height
0: there is never a second genesis block. -/
theorem C16_initializeChain_idempotent (sha : String → String)
    (verify : String → String → String → Option Bool) (bc : Blockchain) (now : Nat)
    (hr : Reachable sha verify bc) :
    (∃ g, (Blockchain.new sha now).chain = [g] ∧ g.height = 0 ∧ g.previousBlockHash = none) ∧
      bc.initializeChain sha now = bc ∧
      (∀ (s : Store) (r t : Nat),
        (s._addBlock sha r t).view.initializeChain sha now = (s._addBlock sha r t).view) ∧
      ∀ (s : Store) (r t : Nat), s.chain ≠ [] →
        ((s._addBlock sha r t).view.chain.filter fun b => b.height = 0).length ≤
          (s.view.chain.filter fun b => b.height = 0).length :=
  ⟨⟨_, new_chain sha now, rfl, rfl⟩, hr.initializeChain_eq now,
    fun s r t => initializeChain_of_height sha _ now (by rw [Store.height_after_addBlock]; omega),
    fun s r t hne => Store.addBlock_genesis_count sha s r t hne⟩

/-- C16 at a fresh ledger: a second `initializeChain()` changes nothing. -/
theorem C16_initializeChain_idempotent_witness :
    (Blockchain.new plainDigest 1700000000000).initializeChain plainDigest 1700000001000 =
      Blockchain.new plainDigest 1700000000000 :=
  (C16_initializeChain_idempotent plainDigest acceptAll _ 1700000001000
    (Reachable.new 1700000000000)).2.1

/-- C17 fails in the first second of the epoch: at clock reading 999, which
is 0 whole seconds, the challenge has an empty timestamp instead of `0`. -/
theorem C17_first_second :
    (Blockchain.new plainDigest 0).requestMessageOwnershipVerification "addr1" 999 =
        .resolved "addr1::starRegistry" ∧
      "addr1::starRegistry" ≠ "addr1" ++ ":" ++ Nat.repr (999 / 1000) ++ ":starRegistry" := by
  decide

/-- C17, amended: for every identity `a` and every clock reading of `t ≥ 1`
whole seconds, `requestMessageOwnershipVerification(a)` resolves to
`a + ":" + decimal(t) + ":starRegistry"`.  The operation returns no new
ledger. -/
theorem C17_challenge (bc : Blockchain) (a : String) (now t : Nat) (ht : now / 1000 = t)
    (h1 : 1 ≤ t) :
    bc.requestMessageOwnershipVerification a now =
      .resolved (a ++ ":" ++ Nat.repr t ++ ":starRegistry") := by
  unfold Blockchain.requestMessageOwnershipVerification
  rw [sliceSeconds_eq (by omega), ht]
  rfl

/-- C17, amended, at the identity `addr1` and second 1700000000. -/
theorem C17_challenge_witness :
    (Blockchain.new plainDigest 0).requestMessageOwnershipVerification "addr1" 1700000000123 =
      .resolved "addr1:1700000000:starRegistry" :=
  C17_challenge (Blockchain.new plainDigest 0) "addr1" 1700000000123 1700000000 (by decide)
    (by decide)

/-- C19 fails for an identity with a colon: the challenge issued for `x:5`
at second 1700000000 has `5` as its second field, `submitStar` reads that as
the timestamp and rejects the challenge as expired in the very same second. -/
theorem C19_colon_in_address :
    (Blockchain.new plainDigest 1700000000000).requestMessageOwnershipVerification "x:5"
        1700000000000 = .resolved "x:5:1700000000:starRegistry" ∧
      messageTime "x:5:1700000000:starRegistry" = some 5 ∧
      ((Blockchain.new plainDigest 1700000000000).submitStar plainDigest acceptAll "x:5"
        "x:5:1700000000:starRegistry" "sig" (.str "Polaris") 1700000000000 1700000000000).2 =
          .rejected (.text "5 minute exceeded") := by
  decide

/-- C19, amended: for every identity `a` without a colon, every issue time
of at least one whole second and every submission time at most 300 seconds
later, the timestamp `submitStar` parses out of the challenge returned by
`requestMessageOwnershipVerification(a)` is the second of issue, and on a
ledger without problems `submitStar` does not reject the challenge as
expired. -/
theorem C19_challenge_not_expired (sha : String → String)
    (verify : String → String → String → Option Bool) (bc : Blockchain)
    (a signature : String) (star : JSON) (issued now addTime : Nat)
    (ha : ':' ∉ a.data) (hissued : 1000 ≤ issued) (hwin : now / 1000 ≤ issued / 1000 + 300)
    (hvalid : bc.validateChain sha = []) :
    ∃ message, bc.requestMessageOwnershipVerification a issued = .resolved message ∧
      messageTime message = some ((issued / 1000 : Nat) : Int) ∧
      (bc.submitStar sha verify a message signature star now addTime).2 ≠
        .rejected (.text "5 minute exceeded") := by
  have e : a ++ ":" ++ sliceSeconds issued ++ ":starRegistry" =
      a ++ ":" ++ ⟨Nat.toDigits 10 (issued / 1000)⟩ ++ ":" ++ "starRegistry" := by
    rw [sliceSeconds_eq hissued, String.append_assoc _ ":" "starRegistry"]
    rfl
  refine ⟨a ++ ":" ++ sliceSeconds issued ++ ":starRegistry", rfl, ?_, ?_⟩
  · rw [e]
    exact messageTime_challenge a "starRegistry" _ ha
  · rw [submitStar_valid _ _ _ _ _ _ _ _ _ hvalid, e, expired_challenge a issued now ha hwin]
    rcases verify _ a signature with _ | _ | _ <;> simp

/-- C19, amended, for the identity `addr1`, issued at second 1700000000 and
submitted 300 seconds later. -/
theorem C19_challenge_not_expired_witness :
    ∃ message,
      (Blockchain.new plainDigest 1700000000000).requestMessageOwnershipVerification "addr1"
        1700000000123 = .resolved message ∧
      messageTime message = some ((1700000000123 / 1000 : Nat) : Int) ∧
      ((Blockchain.new plainDigest 1700000000000).submitStar plainDigest acceptAll "addr1" message
        "sig" (.str "Polaris") 1700000300999 1700000301000).2 ≠
          .rejected (.text "5 minute exceeded") :=
  C19_challenge_not_expired plainDigest acceptAll (Blockchain.new plainDigest 1700000000000)
    "addr1" "sig" (.str "Polaris") 1700000000123 1700000300999 1700000301000 (by decide)
    (by decide) (by decide) (by decide)

/-- C20: a block that enters `_addBlock` with a stale hash is hashed with
that hash in place: the assigned hash is the digest of the representation
that contains the stale hash, which differs from the representation with
`hash: null`, and `validate()` on the returned block is false unless the two
digests collide. -/
theorem C20_addBlock_stale_hash (sha : String → String) (bc : Blockchain) (block : Block)
    (now : Nat) (stale : String) (hstale : block.hash = some stale)
    (hsha : ({ (bc._addBlock sha block now).2 with hash := some stale }).toJSON.stringify ≠
        (bc._addBlock sha block now).2.canonical →
      sha ({ (bc._addBlock sha block now).2 with hash := some stale }).toJSON.stringify ≠
        sha (bc._addBlock sha block now).2.canonical) :
    (bc._addBlock sha block now).2.hash =
        some (sha ({ (bc._addBlock sha block now).2 with hash := some stale }).toJSON.stringify) ∧
      ({ (bc._addBlock sha block now).2 with hash := some stale }).toJSON.stringify ≠
        (bc._addBlock sha block now).2.canonical ∧
      (bc._addBlock sha block now).2.validate sha = false := by
  have hh := addBlock_hash sha bc block now
  rw [hstale] at hh
  have hne : ({ (bc._addBlock sha block now).2 with hash := some stale }).toJSON.stringify ≠
      (bc._addBlock sha block now).2.canonical := by
    intro h
    have := congrArg Block.hash (Block.toJSON_stringify_inj h)
    simp at this
  refine ⟨hh, hne, ?_⟩
  rw [Block.validate_eq, decide_eq_false_iff_not, hh]
  intro h
  exact hsha hne (Option.some.inj h)

/-- C20 at a fresh ledger, for a block that comes in with the hash `stale`
and the hashed string itself as digest. -/
theorem C20_addBlock_stale_hash_witness :
    ((Blockchain.new plainDigest 1700000000000)._addBlock plainDigest
      { Block.new (.str "Polaris") with hash := some "stale" } 1700000001000).2.validate
        plainDigest = false :=
  (C20_addBlock_stale_hash plainDigest (Blockchain.new plainDigest 1700000000000)
    { Block.new (.str "Polaris") with hash := some "stale" } 1700000001000 "stale" rfl
    (fun h => h)).2.2

end PrivateBlockchain
